import Mathlib

/-!
Spell checker: trie, Levenshtein distance and ranked suggestions.

A shallow embedding of `Source.cpp` and the properties of its spell-checking core.

Modelling conventions.

* A C++ `char` is signed, as on the x86 targets: it is modelled by its value, an `Int` between
  -128 and 127, and a `std::string` is a `List Int` (`Str`).  The order `std::less<char>`,
  which is the key order of `std::map<char, TrieNode*>`, is the order of these values, so the
  bytes 0x80..0xFF (the negative values) come before the ASCII characters.  The conversions
  to `unsigned char` and back are explicit (`toUnsignedChar`, `toCChar`).  What is proved for
  every list of integers holds in particular for the lists of characters.
* An `int` has 32 bits: a `size_t` value stored in an `int`, and the result of an `int`
  addition, go through `toInt32`, which wraps the value into the range -2^31 .. 2^31 - 1
  (two's complement).  Sizes and indices (`size_t`) are natural numbers.
* `std::vector<std::vector<int>>` is a `List (List Int)` whose reads and writes are checked:
  an index outside the table makes the whole computation `none`.
* `std::map<K, V>` is an association list kept in strictly increasing key order.
* `std::unordered_set<string>` is a list without repetitions; only membership is observed.
* The dictionary file is `Option (List Int)`: `none` when it cannot be opened, otherwise
  its contents.
-/

namespace SpellCheck

/-- A `std::string`: the list of its characters, each a `char` given by its signed value. -/
abbrev Str := List Int

/-! ## Machine integers -/

/-- Conversion `static_cast<unsigned char>(c)`: the value modulo 256, between 0 and 255. -/
def toUnsignedChar (c : Int) : Int := c % 256

/-- Conversion of an integer to `char`: the value modulo 256, between -128 and 127. -/
def toCChar (x : Int) : Int := (x + 128) % 256 - 128

/-- Conversion of an integer to `int`: the value modulo 2^32, between -2^31 and 2^31 - 1. -/
def toInt32 (x : Int) : Int := (x + 2147483648) % 4294967296 - 2147483648

/-! ## Helper functions -/

/-- The C library `tolower` in the default locale, on `unsigned char` values: `A`..`Z` go to
`a`..`z`. -/
def tolower (u : Int) : Int :=
  if 65 ≤ u ∧ u ≤ 90 then u + 32 else u

/-- The C library `toupper` in the default locale, on `unsigned char` values: `a`..`z` go to
`A`..`Z`. -/
def toupper (u : Int) : Int :=
  if 97 ≤ u ∧ u ≤ 122 then u - 32 else u

/-- The test `isspace` of the default locale, which the stream applies to a character read:
space, `\t`, `\n`, `\v`, `\f`, `\r`. -/
def isspace (c : Int) : Bool :=
  decide (toUnsignedChar c = 32) ||
    (decide (9 ≤ toUnsignedChar c) && decide (toUnsignedChar c ≤ 13))

/-- Source function `toLowerCase`: appends `tolower(static_cast<unsigned char>(c))`, converted
back to `char`, for every character of the word. -/
def toLowerCase : Str → Str
  | [] => []
  | c :: word => toCChar (tolower (toUnsignedChar c)) :: toLowerCase word

/-- Upper-casing of a word, the counterpart of `toLowerCase` used by the properties. -/
def toUpperCase : Str → Str
  | [] => []
  | c :: word => toCChar (toupper (toUnsignedChar c)) :: toUpperCase word

/-! ## `std::map` as a key-ordered association list -/

/-- Lookup `m.find(c)`: the value stored under key `c`, if any. -/
def mapFind {κ β : Type} [LinearOrder κ] : List (κ × β) → κ → Option β
  | [], _ => none
  | (k, v) :: rest, c => if c = k then some v else mapFind rest c

/-- Assignment `m[c] = v`: replaces the value under `c`, or inserts the entry at its place in
key order. -/
def mapSet {κ β : Type} [LinearOrder κ] : List (κ × β) → κ → β → List (κ × β)
  | [], c, v => [(c, v)]
  | (k, x) :: rest, c, v =>
    if c < k then (c, v) :: (k, x) :: rest
    else if c = k then (k, v) :: rest
    else (k, x) :: mapSet rest c v

/-! ## Levenshtein distance -/

/-- The table `dp`. -/
abbrev Table := List (List Int)

/-- Construction `vector<vector<int>> dp(rows, vector<int>(cols))`: a zero-filled table. -/
def Table.create (rows cols : Nat) : Table :=
  List.replicate rows (List.replicate cols 0)

/-- Read of `dp[i][j]`; `none` when an index is out of range. -/
def Table.read (dp : Table) (i j : Nat) : Option Int :=
  match dp[i]? with
  | none => none
  | some row => row[j]?

/-- Write `dp[i][j] = v`; `none` when an index is out of range. -/
def Table.write (dp : Table) (i j : Nat) (v : Int) : Option Table :=
  match dp[i]? with
  | none => none
  | some row => if j < row.length then some (dp.set i (row.set j v)) else none

/-- The body of the inner loop of `levenshteinDistance` at `(i, j)`. -/
def levenshteinCell (a b : Str) (i j : Nat) (dp : Table) : Option Table :=
  match a[i - 1]?, b[j - 1]? with
  | some x, some y =>
    if x = y then
      match dp.read (i - 1) (j - 1) with
      | some v => dp.write i j v
      | none => none
    else
      match dp.read (i - 1) j, dp.read i (j - 1), dp.read (i - 1) (j - 1) with
      | some p, some q, some r => dp.write i j (toInt32 (min p (min q r) + 1))
      | _, _, _ => none
  | _, _ => none

/-- Source function `levenshteinDistance`: fills the table row by row and returns its last
cell.  The indices `i` and `j` are `size_t` values and are narrowed to `int` when stored. -/
def levenshteinDistance (a b : Str) : Option Int := do
  let dp := Table.create (a.length + 1) (b.length + 1)
  let dp ← (List.range (a.length + 1)).foldlM
    (fun dp i => Table.write dp i 0 (toInt32 (i : Int))) dp
  let dp ← (List.range (b.length + 1)).foldlM
    (fun dp j => Table.write dp 0 j (toInt32 (j : Int))) dp
  let dp ← (List.range' 1 a.length).foldlM
    (fun dp i => (List.range' 1 b.length).foldlM (fun dp j => levenshteinCell a b i j dp) dp) dp
  Table.read dp a.length b.length

/-! ## Trie -/

/-- Source type `struct TrieNode`: the children in key order and the end-of-word flag. -/
inductive TrieNode where
  | mk (children : List (Int × TrieNode)) (isEndOfWord : Bool)

/-- Constructor `TrieNode()`: no children, flag cleared. -/
def TrieNode.fresh : TrieNode := TrieNode.mk [] false

/-- The loop of `Trie::insert` started at a node: descend along the word, creating the
missing child at each step, and set the flag of the node reached. -/
def TrieNode.insert : Str → TrieNode → TrieNode
  | [], TrieNode.mk cs _ => TrieNode.mk cs true
  | c :: word, TrieNode.mk cs e =>
    match mapFind cs c with
    | none => TrieNode.mk (mapSet cs c (TrieNode.insert word TrieNode.fresh)) e
    | some child => TrieNode.mk (mapSet cs c (TrieNode.insert word child)) e

mutual
/-- Source function `Trie::getWordsWithPrefix`: pushes the prefix when the node ends a word,
then visits the children in key order. -/
def getWordsWithPrefix : TrieNode → Str → List Str → List Str
  | TrieNode.mk cs e, pre, results =>
    getWordsOfChildren cs pre (if e then results ++ [pre] else results)
/-- The `for` loop of `getWordsWithPrefix` over the children. -/
def getWordsOfChildren : List (Int × TrieNode) → Str → List Str → List Str
  | [], _, results => results
  | (k, child) :: rest, pre, results =>
    getWordsOfChildren rest pre (getWordsWithPrefix child (pre ++ [k]) results)
end

/-- The walk of `Trie::getSuggestions` along the prefix: `none` when a child is missing. -/
def TrieNode.walk : Str → TrieNode → Option TrieNode
  | [], node => some node
  | c :: rest, TrieNode.mk cs _ =>
    match mapFind cs c with
    | none => none
    | some child => TrieNode.walk rest child

/-- Source type `class Trie`: owns the root node. -/
structure Trie where
  root : TrieNode

/-- Constructor `Trie()`: the root is a fresh node. -/
def Trie.empty : Trie := ⟨TrieNode.fresh⟩

/-- Source function `Trie::insert`, on the root. -/
def Trie.insert (t : Trie) (word : Str) : Trie := ⟨TrieNode.insert word t.root⟩

/-- Source function `Trie::getSuggestions`: empty when the walk fails, else the words below the
node reached. -/
def Trie.getSuggestions (t : Trie) (pre : Str) : List Str :=
  match TrieNode.walk pre t.root with
  | none => []
  | some node => getWordsWithPrefix node pre []

/-- The trie after inserting the words of a list, in order, into an empty trie. -/
def Trie.ofWords (words : List Str) : Trie := words.foldl Trie.insert Trie.empty

/-! ## SpellChecker -/

/-- Source type `class SpellChecker`: the membership set and the trie. -/
structure SpellChecker where
  dictionary : List Str
  trie : Trie

/-- Insertion `dictionary.insert(word)` on the `unordered_set`. -/
def setInsert (s : List Str) (word : Str) : List Str :=
  if word ∈ s then s else word :: s

/-- The words that the loop `while (file >> word)` reads from a text: the maximal runs of
non-whitespace characters.  `cur` is the run being read. -/
def extractFrom (cur : Str) : List Int → List Str
  | [] => if cur = [] then [] else [cur]
  | c :: rest =>
    if isspace c then
      if cur = [] then extractFrom [] rest else cur :: extractFrom [] rest
    else extractFrom (cur ++ [c]) rest

/-- The words of a dictionary text. -/
def extractWords (text : List Int) : List Str := extractFrom [] text

/-- The body of the loading loop: lower-case the word, insert it in the set and in the trie. -/
def SpellChecker.addWord (sc : SpellChecker) (word : Str) : SpellChecker :=
  let word := toLowerCase word
  ⟨setInsert sc.dictionary word, sc.trie.insert word⟩

/-- Source function `SpellChecker::loadDictionary`: when the file is open, process each of its
words; otherwise only a message is printed and the state is unchanged. -/
def SpellChecker.loadDictionary (sc : SpellChecker) (file : Option (List Int)) : SpellChecker :=
  match file with
  | some text => (extractWords text).foldl SpellChecker.addWord sc
  | none => sc

/-- Constructor `SpellChecker::SpellChecker`: both members start empty, then the dictionary is
loaded. -/
def SpellChecker.new (file : Option (List Int)) : SpellChecker :=
  SpellChecker.loadDictionary ⟨[], Trie.empty⟩ file

/-- Source function `SpellChecker::isWordCorrect`: membership of the lower-cased word. -/
def SpellChecker.isWordCorrect (sc : SpellChecker) (word : Str) : Bool :=
  decide (toLowerCase word ∈ sc.dictionary)

/-- The first loop of `SpellChecker::getSuggestions`:
`distanceMap[distance].push_back(match)` for one match. -/
def addToDistanceMap (lowerWord : Str) (distanceMap : List (Int × List Str)) (m : Str) :
    Option (List (Int × List Str)) :=
  match levenshteinDistance lowerWord m with
  | none => none
  | some distance =>
    some (mapSet distanceMap distance ((mapFind distanceMap distance).getD [] ++ [m]))

/-- The inner collecting loop over one group; the flag tells that the function returned
from inside the loop because five suggestions were reached. -/
def collectGroup : List Str → List Str → List Str × Bool
  | [], suggestions => (suggestions, false)
  | s :: rest, suggestions =>
    if (suggestions ++ [s]).length ≥ 5 then (suggestions ++ [s], true)
    else collectGroup rest (suggestions ++ [s])

/-- The outer collecting loop over the distance map, in key order. -/
def collectSuggestions : List (Int × List Str) → List Str → List Str
  | [], suggestions => suggestions
  | (_, group) :: rest, suggestions =>
    match collectGroup group suggestions with
    | (found, true) => found
    | (found, false) => collectSuggestions rest found

/-- Source function `SpellChecker::getSuggestions`: group the prefix matches by distance, then
collect at most five in key order. -/
def SpellChecker.getSuggestions (sc : SpellChecker) (word : Str) : Option (List Str) :=
  let lowerWord := toLowerCase word
  let prefixMatches := sc.trie.getSuggestions lowerWord
  match prefixMatches.foldlM (addToDistanceMap lowerWord) [] with
  | none => none
  | some distanceMap => some (collectSuggestions distanceMap [])

/-! ## The queries with the state threaded through

The query methods are not `const` in the source.  Here they return, next to their result, the
state they leave behind, so that what they do to the trie and to the set can be stated. -/

/-- The change of a map when the node that the entry under `c` points to becomes `v`: the entry
found by `mapFind` is the one that changes. -/
def mapReplace {κ β : Type} [LinearOrder κ] : List (κ × β) → κ → β → List (κ × β)
  | [], _, _ => []
  | (k, x) :: rest, c, v =>
    if c = k then (k, v) :: rest else (k, x) :: mapReplace rest c v

/-- The expression `children[c]`: the child stored under `c` and the map afterwards.  When the
key is absent `operator[]` adds an entry that holds a null pointer; no `TrieNode` stands for
that, so the case is `none`. -/
def childIndex (cs : List (Int × TrieNode)) (c : Int) :
    Option (TrieNode × List (Int × TrieNode)) :=
  match mapFind cs c with
  | some child => some (child, cs)
  | none => none

/-- The walk of `Trie::getSuggestions` along the prefix with the node threaded through: the
node reached (`none` for the early return) and the node walked as it is afterwards. -/
def TrieNode.walkState : Str → TrieNode → Option (Option TrieNode × TrieNode)
  | [], node => some (some node, node)
  | c :: rest, TrieNode.mk cs e =>
    match mapFind cs c with
    | none => some (none, TrieNode.mk cs e)
    | some _ =>
      match childIndex cs c with
      | none => none
      | some (child, cs1) =>
        match TrieNode.walkState rest child with
        | none => none
        | some (reached, child1) => some (reached, TrieNode.mk (mapReplace cs1 c child1) e)

/-- Source function `Trie::getSuggestions`, returning also the trie it leaves behind. -/
def Trie.getSuggestionsState (t : Trie) (pre : Str) : Option (List Str × Trie) :=
  match TrieNode.walkState pre t.root with
  | none => none
  | some (none, root1) => some ([], ⟨root1⟩)
  | some (some node, root1) => some (getWordsWithPrefix node pre [], ⟨root1⟩)

/-- Source function `SpellChecker::isWordCorrect`, returning also the checker it leaves behind:
`dictionary.find` is a lookup. -/
def SpellChecker.isWordCorrectState (sc : SpellChecker) (word : Str) : Bool × SpellChecker :=
  (decide (toLowerCase word ∈ sc.dictionary), sc)

/-- Source function `SpellChecker::getSuggestions`, returning also the checker it leaves
behind. -/
def SpellChecker.getSuggestionsState (sc : SpellChecker) (word : Str) :
    Option (List Str × SpellChecker) :=
  let lowerWord := toLowerCase word
  match sc.trie.getSuggestionsState lowerWord with
  | none => none
  | some (prefixMatches, trie1) =>
    match prefixMatches.foldlM (addToDistanceMap lowerWord) [] with
    | none => none
    | some distanceMap => some (collectSuggestions distanceMap [], ⟨sc.dictionary, trie1⟩)

/-! ## Levenshtein distance on a table that records assignments

The same function, on a table whose cells record whether they have been assigned: a read of a
cell that was never assigned fails like an access outside the table. -/

/-- The table `dp` with a record per cell: `none` marks a cell that was never assigned. -/
abbrev TrackedTable := List (List (Option Int))

/-- Construction of the table: no cell has been assigned. -/
def TrackedTable.create (rows cols : Nat) : TrackedTable :=
  List.replicate rows (List.replicate cols none)

/-- Read of `dp[i][j]`; `none` when an index is out of range or the cell was never assigned. -/
def TrackedTable.read (dp : TrackedTable) (i j : Nat) : Option Int :=
  match dp[i]? with
  | none => none
  | some row =>
    match row[j]? with
    | none => none
    | some cell => cell

/-- Write `dp[i][j] = v`; `none` when an index is out of range. -/
def TrackedTable.write (dp : TrackedTable) (i j : Nat) (v : Int) : Option TrackedTable :=
  match dp[i]? with
  | none => none
  | some row => if j < row.length then some (dp.set i (row.set j (some v))) else none

/-- The body of the inner loop of `levenshteinDistance` at `(i, j)`, on the tracked table. -/
def levenshteinCellTracked (a b : Str) (i j : Nat) (dp : TrackedTable) : Option TrackedTable :=
  match a[i - 1]?, b[j - 1]? with
  | some x, some y =>
    if x = y then
      match dp.read (i - 1) (j - 1) with
      | some v => dp.write i j v
      | none => none
    else
      match dp.read (i - 1) j, dp.read i (j - 1), dp.read (i - 1) (j - 1) with
      | some p, some q, some r => dp.write i j (toInt32 (min p (min q r) + 1))
      | _, _, _ => none
  | _, _ => none

/-- Source function `levenshteinDistance` on the tracked table. -/
def levenshteinDistanceTracked (a b : Str) : Option Int := do
  let dp := TrackedTable.create (a.length + 1) (b.length + 1)
  let dp ← (List.range (a.length + 1)).foldlM
    (fun dp i => TrackedTable.write dp i 0 (toInt32 (i : Int))) dp
  let dp ← (List.range (b.length + 1)).foldlM
    (fun dp j => TrackedTable.write dp 0 j (toInt32 (j : Int))) dp
  let dp ← (List.range' 1 a.length).foldlM
    (fun dp i =>
      (List.range' 1 b.length).foldlM (fun dp j => levenshteinCellTracked a b i j dp) dp) dp
  TrackedTable.read dp a.length b.length

/-! ## Definitions used to state the properties -/

/-- One edit of a string: a character is inserted, deleted, or replaced by a different one,
at any position. -/
inductive EditStep : Str → Str → Prop
  | insert (l r : Str) (c : Int) : EditStep (l ++ r) (l ++ c :: r)
  | delete (l r : Str) (c : Int) : EditStep (l ++ c :: r) (l ++ r)
  | substitute (l r : Str) (c d : Int) : c ≠ d → EditStep (l ++ c :: r) (l ++ d :: r)

/-- An edit sequence of `n` edits that transforms the first string into the second. -/
inductive EditSeq : Nat → Str → Str → Prop
  | done (a : Str) : EditSeq 0 a a
  | step {n : Nat} {a b c : Str} : EditStep a b → EditSeq n b c → EditSeq (n + 1) a c

/-- The string of a literal: its characters converted to `char`. -/
def str (s : String) : Str := s.toList.map (fun ch => toCChar (ch.toNat : Int))

/-- Strict lexicographic order of strings, as `std::string` compares them: a proper prefix comes
first, otherwise the first differing character decides, the characters compared by their
`unsigned char` values. -/
def lexLt : Str → Str → Bool
  | [], [] => false
  | [], _ :: _ => true
  | _ :: _, [] => false
  | x :: a, y :: b =>
    decide (toUnsignedChar x < toUnsignedChar y) || (decide (x = y) && lexLt a b)

/-- Strict lexicographic order of strings over the key order of the children map: a proper
prefix comes first, otherwise the first differing character decides, the characters compared
by `std::less<char>`, that is by their signed values. -/
def keyLexLt : Str → Str → Bool
  | [], [] => false
  | [], _ :: _ => true
  | _ :: _, [] => false
  | x :: a, y :: b => decide (x < y) || (decide (x = y) && keyLexLt a b)

/-- Every character of the string is an ASCII character. -/
def IsAscii (s : Str) : Prop := ∀ c ∈ s, 0 ≤ c ∧ c < 128

/-- The words that loading reads from the dictionary file, in order and before lower-casing;
there are none when the file cannot be opened. -/
def fileWords (file : Option (List Int)) : List Str :=
  match file with
  | some text => extractWords text
  | none => []

/-- The distance from the query to a candidate, as a sort key. -/
def distanceTo (q c : Str) : Int := (levenshteinDistance q c).getD 0

/-- The ranking of candidates: ascending distance to the query, and lexicographic among
candidates at the same distance. -/
def rankLe (q c1 c2 : Str) : Prop :=
  distanceTo q c1 < distanceTo q c2 ∨
    (distanceTo q c1 = distanceTo q c2 ∧ (c1 = c2 ∨ lexLt c1 c2 = true))

instance rankLe.decidable (q : Str) : DecidableRel (rankLe q) :=
  fun c1 c2 => inferInstanceAs (Decidable
    (distanceTo q c1 < distanceTo q c2 ∨
      (distanceTo q c1 = distanceTo q c2 ∧ (c1 = c2 ∨ lexLt c1 c2 = true))))

/-- The candidates sorted by the ranking. -/
def rankedCandidates (q : Str) (candidates : List Str) : List Str :=
  candidates.insertionSort (rankLe q)

/-- The ranking of candidates with the ties broken in the key order of the trie: ascending
distance to the query, and `keyLexLt` among candidates at the same distance. -/
def keyRankLe (q c1 c2 : Str) : Prop :=
  distanceTo q c1 < distanceTo q c2 ∨
    (distanceTo q c1 = distanceTo q c2 ∧ (c1 = c2 ∨ keyLexLt c1 c2 = true))

instance keyRankLe.decidable (q : Str) : DecidableRel (keyRankLe q) :=
  fun c1 c2 => inferInstanceAs (Decidable
    (distanceTo q c1 < distanceTo q c2 ∨
      (distanceTo q c1 = distanceTo q c2 ∧ (c1 = c2 ∨ keyLexLt c1 c2 = true))))

/-- The candidates sorted by the ranking with ties in key order. -/
def keyRankedCandidates (q : Str) (candidates : List Str) : List Str :=
  candidates.insertionSort (keyRankLe q)

/-- The order of candidates by length: a shorter word first, and the lexicographic order among
words of the same length. -/
def shorterFirst (c1 c2 : Str) : Prop :=
  c1.length < c2.length ∨ (c1.length = c2.length ∧ (c1 = c2 ∨ lexLt c1 c2 = true))

instance shorterFirst.decidable : DecidableRel shorterFirst :=
  fun c1 c2 => inferInstanceAs (Decidable
    (c1.length < c2.length ∨ (c1.length = c2.length ∧ (c1 = c2 ∨ lexLt c1 c2 = true))))

/-- The order of candidates by length with the ties broken in the key order of the trie: a
shorter word first, and `keyLexLt` among words of the same length. -/
def keyShorterFirst (c1 c2 : Str) : Prop :=
  c1.length < c2.length ∨ (c1.length = c2.length ∧ (c1 = c2 ∨ keyLexLt c1 c2 = true))

/-! ## Definitions used by the proofs -/

/-- The groups of a distance map, concatenated in key order. -/
def flattenGroups : List (Int × List Str) → List Str
  | [] => []
  | (_, group) :: rest => group ++ flattenGroups rest

/-- The update of the distance map for one match, given its distance. -/
def pushMatch (distanceMap : List (Int × List Str)) (distance : Int) (m : Str) :
    List (Int × List Str) :=
  mapSet distanceMap distance ((mapFind distanceMap distance).getD [] ++ [m])

/-- The recursive description of the Levenshtein distance, on the first characters. -/
def levRec : Str → Str → Nat
  | [], b => b.length
  | x :: a, [] => (x :: a).length
  | x :: a, y :: b =>
    if x = y then levRec a b
    else min (levRec a (y :: b)) (min (levRec (x :: a) b) (levRec a b)) + 1
termination_by a b => a.length + b.length

/-- The table has `n + 1` rows of `m + 1` cells. -/
def Table.Shape (n m : Nat) (dp : Table) : Prop :=
  dp.length = n + 1 ∧ ∀ row ∈ dp, row.length = m + 1

/-- The distance between the prefixes of lengths `i` and `j`. -/
def cellValue (a b : Str) (i j : Nat) : Int :=
  (levRec (a.take i).reverse (b.take j).reverse : Nat)

/-- The value the table holds at `(i, j)`: the recurrence of the source on 32-bit values. -/
def wrappedCell (a b : Str) : Nat → Nat → Int
  | 0, j => toInt32 (j : Int)
  | i + 1, 0 => toInt32 ((i + 1 : Nat) : Int)
  | i + 1, j + 1 =>
    match a[i]?, b[j]? with
    | some x, some y =>
      if x = y then wrappedCell a b i j
      else toInt32 (min (wrappedCell a b i (j + 1))
        (min (wrappedCell a b (i + 1) j) (wrappedCell a b i j)) + 1)
    | _, _ => 0
termination_by i j => i + j

/-- The table has the right shape and holds the right value in every cell of the region. -/
def Table.Filled (a b : Str) (R : Nat → Nat → Prop) (dp : Table) : Prop :=
  Table.Shape a.length b.length dp ∧
    ∀ i j, i ≤ a.length → j ≤ b.length → R i j →
      Table.read dp i j = some (wrappedCell a b i j)

/-- The `std::map` invariant: the keys strictly increase along the list. -/
def MapOrdered {κ β : Type} [LinearOrder κ] (m : List (κ × β)) : Prop :=
  m.Pairwise (fun p q => p.1 < q.1)

/-- The invariant of the first loop of `SpellChecker::getSuggestions`: the map is in key order,
its groups together hold the matches processed so far, every group holds matches at the
distance of its key, in the order in which they were processed. -/
def DistanceMapInv (q : Str) (distanceMap : List (Int × List Str)) (processed : List Str) :
    Prop :=
  MapOrdered distanceMap ∧ (flattenGroups distanceMap).Perm processed ∧
    ∀ p ∈ distanceMap, (∀ x ∈ p.2, distanceTo q x = p.1) ∧ p.2.Sublist processed

/-- The tracked table has `n + 1` rows of `m + 1` cells. -/
def TrackedTable.Shape (n m : Nat) (dp : TrackedTable) : Prop :=
  dp.length = n + 1 ∧ ∀ row ∈ dp, row.length = m + 1

/-- The tracked table has the right shape, and every cell of the region has been assigned the
right value. -/
def TrackedTable.Filled (a b : Str) (R : Nat → Nat → Prop) (dp : TrackedTable) : Prop :=
  TrackedTable.Shape a.length b.length dp ∧
    ∀ i j, i ≤ a.length → j ≤ b.length → R i j →
      TrackedTable.read dp i j = some (wrappedCell a b i j)

mutual
/-- The words stored below a node, each spelled from that node, in traversal order. -/
def wordsBelow : TrieNode → List Str
  | TrieNode.mk cs e => (if e then [[]] else []) ++ wordsBelowChildren cs
/-- The words stored below the children of a node, each starting with the child key. -/
def wordsBelowChildren : List (Int × TrieNode) → List Str
  | [] => []
  | (k, child) :: rest => (wordsBelow child).map (fun w => k :: w) ++ wordsBelowChildren rest
end

mutual
/-- The `std::map` invariant at every node: the keys of the children strictly increase. -/
def TrieNode.Ordered : TrieNode → Prop
  | TrieNode.mk cs _ => childrenOrdered cs
/-- The invariant for a list of children. -/
def childrenOrdered : List (Int × TrieNode) → Prop
  | [] => True
  | (k, child) :: rest =>
    TrieNode.Ordered child ∧ (∀ p ∈ rest, k < p.1) ∧ childrenOrdered rest
end

/-! # Theorems -/

theorem levRec_nil_left (b : Str) : levRec [] b = b.length := by
  rw [levRec]

theorem levRec_nil_right (a : Str) : levRec a [] = a.length := by
  cases a <;> simp [levRec]

theorem levRec_cons_cons (x y : Int) (a b : Str) :
    levRec (x :: a) (y :: b) =
      if x = y then levRec a b
      else min (levRec a (y :: b)) (min (levRec (x :: a) b) (levRec a b)) + 1 := by
  rw [levRec]

theorem levRec_adjacent : ∀ (n : Nat) (a b : Str), a.length + b.length = n →
    (∀ x, levRec (x :: a) b ≤ levRec a b + 1 ∧ levRec a b ≤ levRec (x :: a) b + 1) ∧
    (∀ y, levRec a (y :: b) ≤ levRec a b + 1 ∧ levRec a b ≤ levRec a (y :: b) + 1) := by
  intro n
  induction n using Nat.strong_induction_on with
  | _ n ih =>
    intro a b hn
    refine ⟨fun x => ?_, fun y => ?_⟩
    · cases b with
      | nil => simp [levRec_nil_right]; omega
      | cons y b1 =>
        have h1 := (ih (a.length + b1.length) (by simp at hn; omega) a b1 rfl).2 y
        have h2 := (ih (a.length + b1.length) (by simp at hn; omega) a b1 rfl).1 x
        rw [levRec_cons_cons]
        split <;> omega
    · cases a with
      | nil => simp [levRec_nil_left]; omega
      | cons x a1 =>
        have h1 := (ih (a1.length + b.length) (by simp at hn; omega) a1 b rfl).1 x
        have h2 := (ih (a1.length + b.length) (by simp at hn; omega) a1 b rfl).2 y
        rw [levRec_cons_cons]
        split <;> omega

theorem levRec_cons_left (x : Int) (a b : Str) :
    levRec (x :: a) b ≤ levRec a b + 1 ∧ levRec a b ≤ levRec (x :: a) b + 1 :=
  (levRec_adjacent _ a b rfl).1 x

theorem levRec_cons_right (y : Int) (a b : Str) :
    levRec a (y :: b) ≤ levRec a b + 1 ∧ levRec a b ≤ levRec a (y :: b) + 1 :=
  (levRec_adjacent _ a b rfl).2 y

theorem levRec_self (a : Str) : levRec a a = 0 := by
  induction a with
  | nil => simp [levRec_nil_left]
  | cons x a ih => simp [levRec_cons_cons, ih]

/-- Editing inside the tail moves the distance by at most one when it does so for the tail. -/
theorem levRec_cons_congr (x : Int) (t t1 : Str)
    (h : ∀ b, levRec t b ≤ levRec t1 b + 1) : ∀ b, levRec (x :: t) b ≤ levRec (x :: t1) b + 1 := by
  intro b
  induction b with
  | nil =>
    have := h []
    simp [levRec_nil_right] at this ⊢
    omega
  | cons y b ih =>
    have h1 := h b
    have h2 := h (y :: b)
    rw [levRec_cons_cons, levRec_cons_cons]
    split <;> omega

theorem levRec_substitute_head (c d : Int) (r : Str) :
    ∀ b, levRec (c :: r) b ≤ levRec (d :: r) b + 1 := by
  intro b
  induction b with
  | nil => simp [levRec_nil_right]
  | cons y b ih =>
    have h1 := levRec_cons_left c r (y :: b)
    have h2 := levRec_cons_right y (c :: r) b
    have h3 : levRec (c :: r) (y :: b) ≤ levRec r b + 1 := by
      rw [levRec_cons_cons]
      split <;> omega
    rw [levRec_cons_cons d y]
    split <;> omega

theorem levRec_editStep {a a1 : Str} (h : EditStep a a1) :
    ∀ b, levRec a b ≤ levRec a1 b + 1 := by
  cases h with
  | insert l r c =>
    induction l with
    | nil => intro b; exact (levRec_cons_left c r b).2
    | cons x l ih => exact levRec_cons_congr x _ _ ih
  | delete l r c =>
    induction l with
    | nil => intro b; exact (levRec_cons_left c r b).1
    | cons x l ih => exact levRec_cons_congr x _ _ ih
  | substitute l r c d _ =>
    induction l with
    | nil => exact levRec_substitute_head c d r
    | cons x l ih => exact levRec_cons_congr x _ _ ih

theorem levRec_le_of_editSeq {n : Nat} {a b : Str} (h : EditSeq n a b) : levRec a b ≤ n := by
  induction h with
  | done a => simp [levRec_self]
  | @step n a b c hs _ ih =>
    have := levRec_editStep hs c
    omega

theorem editStep_cons (x : Int) {a b : Str} (h : EditStep a b) : EditStep (x :: a) (x :: b) := by
  cases h with
  | insert l r c => exact EditStep.insert (x :: l) r c
  | delete l r c => exact EditStep.delete (x :: l) r c
  | substitute l r c d hne => exact EditStep.substitute (x :: l) r c d hne

theorem editSeq_cons (x : Int) {n : Nat} {a b : Str} (h : EditSeq n a b) :
    EditSeq n (x :: a) (x :: b) := by
  induction h with
  | done a => exact EditSeq.done _
  | step hs _ ih => exact EditSeq.step (editStep_cons x hs) ih

theorem editSeq_cast {n m : Nat} {a b : Str} (h : EditSeq n a b) (e : n = m) : EditSeq m a b :=
  e ▸ h

theorem editSeq_levRec : ∀ (n : Nat) (a b : Str), a.length + b.length = n →
    EditSeq (levRec a b) a b := by
  intro n
  induction n using Nat.strong_induction_on with
  | _ n ih =>
    intro a b hn
    match a, b, hn with
    | [], [], _ => exact editSeq_cast (EditSeq.done []) (by simp [levRec_nil_left])
    | [], y :: b, hn =>
      have h := ih b.length (by simp at hn; omega) [] b (by simp)
      rw [levRec_nil_left] at h
      exact editSeq_cast (EditSeq.step (EditStep.insert [] [] y) (editSeq_cons y h))
        (by simp [levRec_nil_left])
    | x :: a, [], hn =>
      have h := ih a.length (by simp at hn; omega) a [] (by simp)
      rw [levRec_nil_right] at h
      exact editSeq_cast (EditSeq.step (EditStep.delete [] a x) h) (by simp [levRec_nil_right])
    | x :: a, y :: b, hn =>
      have hd := ih (a.length + (y :: b).length) (by simp at hn ⊢; omega) a (y :: b) rfl
      have hi := ih ((x :: a).length + b.length) (by simp at hn ⊢; omega) (x :: a) b rfl
      have hs := ih (a.length + b.length) (by simp at hn ⊢; omega) a b rfl
      rw [levRec_cons_cons]
      by_cases hxy : x = y
      · subst hxy
        simpa using editSeq_cons x hs
      · rw [if_neg hxy]
        by_cases c1 : levRec a (y :: b) ≤ min (levRec (x :: a) b) (levRec a b)
        · rw [min_eq_left c1]
          exact EditSeq.step (EditStep.delete [] a x) hd
        · rw [min_eq_right (le_of_not_le c1)]
          by_cases c2 : levRec (x :: a) b ≤ levRec a b
          · rw [min_eq_left c2]
            exact EditSeq.step (EditStep.insert [] (x :: a) y) (editSeq_cons y hi)
          · rw [min_eq_right (le_of_not_le c2)]
            exact EditSeq.step (EditStep.substitute [] a x y hxy) (editSeq_cons y hs)

theorem editStep_reverse {a b : Str} (h : EditStep a b) : EditStep a.reverse b.reverse := by
  cases h with
  | insert l r c => simpa using EditStep.insert r.reverse l.reverse c
  | delete l r c => simpa using EditStep.delete r.reverse l.reverse c
  | substitute l r c d hne => simpa using EditStep.substitute r.reverse l.reverse c d hne

theorem editSeq_reverse {n : Nat} {a b : Str} (h : EditSeq n a b) :
    EditSeq n a.reverse b.reverse := by
  induction h with
  | done a => exact EditSeq.done _
  | step hs _ ih => exact EditSeq.step (editStep_reverse hs) ih

/-- The value of `levRec` on the reversed strings is the least length of an edit sequence. -/
theorem levRec_reverse_minimal (a b : Str) :
    EditSeq (levRec a.reverse b.reverse) a b ∧
      ∀ n, EditSeq n a b → levRec a.reverse b.reverse ≤ n := by
  constructor
  · simpa using editSeq_reverse (editSeq_levRec _ a.reverse b.reverse rfl)
  · intro n h
    exact levRec_le_of_editSeq (editSeq_reverse h)

/-- Invariant rule for a loop over `start, start+1, ..., start+count-1` in the `Option` monad. -/
theorem foldlM_range'_invariant {σ : Type} (f : σ → Nat → Option σ) (Inv : Nat → σ → Prop) :
    ∀ (count start : Nat) (s0 : σ), Inv start s0 →
      (∀ k st, start ≤ k → k < start + count → Inv k st →
        ∃ st1, f st k = some st1 ∧ Inv (k + 1) st1) →
      ∃ st1, (List.range' start count).foldlM f s0 = some st1 ∧ Inv (start + count) st1 := by
  intro count
  induction count with
  | zero =>
    intro start s0 h0 _
    exact ⟨s0, by simp, by simpa using h0⟩
  | succ n ih =>
    intro start s0 h0 hstep
    obtain ⟨s1, hf, h1⟩ := hstep start s0 (le_refl _) (by omega) h0
    obtain ⟨s2, hfold, h2⟩ := ih (start + 1) s1 h1
      (fun k st hk1 hk2 hinv => hstep k st (by omega) (by omega) hinv)
    refine ⟨s2, ?_, ?_⟩
    · simp [List.range'_succ, List.foldlM_cons, hf, hfold]
    · have e : start + (n + 1) = start + 1 + n := by omega
      rw [e]; exact h2

theorem Table.shape_create (n m : Nat) : Table.Shape n m (Table.create (n + 1) (m + 1)) := by
  constructor
  · simp [Table.create]
  · intro row hrow
    simp [Table.create] at hrow
    simp [hrow]

theorem Table.write_spec {n m : Nat} {dp : Table} (hs : Table.Shape n m dp) {i j : Nat}
    (hi : i ≤ n) (hj : j ≤ m) (v : Int) :
    ∃ dp1, Table.write dp i j v = some dp1 ∧ Table.Shape n m dp1 ∧
      ∀ i1 j1, Table.read dp1 i1 j1 = if i1 = i ∧ j1 = j then some v else Table.read dp i1 j1 := by
  obtain ⟨hlen, hrows⟩ := hs
  have hil : i < dp.length := by omega
  have hrow : (dp[i]).length = m + 1 := hrows _ (List.getElem_mem hil)
  refine ⟨dp.set i ((dp[i]).set j v), ?_, ⟨?_, ?_⟩, ?_⟩
  · simp only [Table.write, List.getElem?_eq_getElem hil]
    rw [if_pos (by omega)]
  · simpa using hlen
  · intro row hmem
    rcases List.mem_or_eq_of_mem_set hmem with h | h
    · exact hrows _ h
    · rw [h]; simpa using hrow
  · intro i1 j1
    simp only [Table.read]
    by_cases e : i1 = i
    · subst e
      rw [List.getElem?_set_self hil]
      by_cases e2 : j1 = j
      · subst e2
        rw [if_pos ⟨rfl, rfl⟩]
        simp [List.getElem?_set_self (show j1 < (dp[i1]).length by omega)]
      · rw [if_neg (fun h => e2 h.2)]
        simp [List.getElem?_eq_getElem hil, List.getElem?_set_ne (Ne.symm e2)]
    · rw [if_neg (fun h => e h.1), List.getElem?_set_ne (Ne.symm e)]

theorem cellValue_zero_right (a b : Str) (i : Nat) (hi : i ≤ a.length) :
    cellValue a b i 0 = (i : Int) := by
  simp [cellValue, levRec_nil_right, hi]

theorem cellValue_zero_left (a b : Str) (j : Nat) (hj : j ≤ b.length) :
    cellValue a b 0 j = (j : Int) := by
  simp [cellValue, levRec_nil_left, hj]

theorem cellValue_succ_succ (a b : Str) (i j : Nat) (x y : Int)
    (hx : a[i]? = some x) (hy : b[j]? = some y) :
    cellValue a b (i + 1) (j + 1) =
      if x = y then cellValue a b i j
      else min (cellValue a b i (j + 1))
        (min (cellValue a b (i + 1) j) (cellValue a b i j)) + 1 := by
  have ea : (a.take (i + 1)).reverse = x :: (a.take i).reverse := by
    simp [List.take_succ, hx]
  have eb : (b.take (j + 1)).reverse = y :: (b.take j).reverse := by
    simp [List.take_succ, hy]
  unfold cellValue
  rw [ea, eb, levRec_cons_cons]
  split
  · rfl
  · push_cast; rfl

theorem levRec_le_max : ∀ (a b : Str), levRec a b ≤ max a.length b.length := by
  intro a
  induction a with
  | nil => intro b; simp [levRec_nil_left]
  | cons x a ih =>
    intro b
    cases b with
    | nil => simp [levRec_nil_right]
    | cons y b =>
      have h := ih b
      have h1 : levRec (x :: a) (y :: b) ≤ levRec a b + 1 := by
        rw [levRec_cons_cons]
        split <;> omega
      simp only [List.length_cons]
      omega

theorem cellValue_nonneg (a b : Str) (i j : Nat) : 0 ≤ cellValue a b i j :=
  Int.ofNat_nonneg _

theorem cellValue_le_max (a b : Str) (i j : Nat) :
    cellValue a b i j ≤ max (i : Int) (j : Int) := by
  have h := levRec_le_max (a.take i).reverse (b.take j).reverse
  simp only [List.length_reverse, List.length_take] at h
  unfold cellValue
  omega

/-! ### 32-bit values -/

theorem toInt32_of_range {x : Int} (h0 : -2147483648 ≤ x) (h1 : x < 2147483648) :
    toInt32 x = x := by
  unfold toInt32
  omega

theorem wrappedCell_zero_right (a b : Str) (i : Nat) :
    wrappedCell a b i 0 = toInt32 (i : Int) := by
  cases i <;> rw [wrappedCell]

theorem wrappedCell_zero_left (a b : Str) (j : Nat) :
    wrappedCell a b 0 j = toInt32 (j : Int) := by
  rw [wrappedCell]

theorem wrappedCell_succ_succ (a b : Str) (i j : Nat) (x y : Int)
    (hx : a[i]? = some x) (hy : b[j]? = some y) :
    wrappedCell a b (i + 1) (j + 1) =
      if x = y then wrappedCell a b i j
      else toInt32 (min (wrappedCell a b i (j + 1))
        (min (wrappedCell a b (i + 1) j) (wrappedCell a b i j)) + 1) := by
  rw [wrappedCell, hx, hy]

/-- For strings shorter than 2^31 no value wraps: the table holds the prefix distances. -/
theorem wrappedCell_eq_cellValue (a b : Str) (ha : a.length < 2147483648)
    (hb : b.length < 2147483648) : ∀ (n i j : Nat), i + j = n → i ≤ a.length → j ≤ b.length →
    wrappedCell a b i j = cellValue a b i j := by
  intro n
  induction n using Nat.strong_induction_on with
  | _ n ih =>
    intro i j hn hi hj
    match i, j, hn, hi, hj with
    | 0, j, _, _, hj =>
      rw [wrappedCell_zero_left, cellValue_zero_left a b j hj]
      exact toInt32_of_range (by omega) (by omega)
    | i + 1, 0, _, hi, _ =>
      rw [wrappedCell_zero_right, cellValue_zero_right a b (i + 1) hi]
      exact toInt32_of_range (by omega) (by omega)
    | i + 1, j + 1, hn, hi, hj =>
      have hx : a[i]? = some (a[i]) := List.getElem?_eq_getElem (by omega)
      have hy : b[j]? = some (b[j]) := List.getElem?_eq_getElem (by omega)
      have h1 := ih (i + (j + 1)) (by omega) i (j + 1) rfl (by omega) hj
      have h2 := ih (i + 1 + j) (by omega) (i + 1) j rfl hi (by omega)
      have h3 := ih (i + j) (by omega) i j rfl (by omega) (by omega)
      have hc := cellValue_succ_succ a b i j _ _ hx hy
      have hn0 := cellValue_nonneg a b (i + 1) (j + 1)
      have hle := cellValue_le_max a b (i + 1) (j + 1)
      rw [wrappedCell_succ_succ a b i j _ _ hx hy, h1, h2, h3]
      by_cases e : a[i] = b[j]
      · rw [if_pos e] at hc ⊢
        exact hc.symm
      · rw [if_neg e] at hc ⊢
        rw [← hc]
        exact toInt32_of_range (by omega) (by omega)

theorem Table.filled_write {a b : Str} {R R1 : Nat → Nat → Prop} {dp : Table}
    (h : Table.Filled a b R dp) {i j : Nat} (hi : i ≤ a.length) (hj : j ≤ b.length)
    {v : Int} (hv : v = wrappedCell a b i j)
    (hR : ∀ i1 j1, R1 i1 j1 → (i1 = i ∧ j1 = j) ∨ R i1 j1) :
    ∃ dp1, Table.write dp i j v = some dp1 ∧ Table.Filled a b R1 dp1 := by
  obtain ⟨dp1, hw, hs, hr⟩ := Table.write_spec h.1 hi hj v
  refine ⟨dp1, hw, hs, ?_⟩
  intro i1 j1 hi1 hj1 h1
  rw [hr]
  by_cases e : i1 = i ∧ j1 = j
  · rw [if_pos e, hv, e.1, e.2]
  · rw [if_neg e]
    rcases hR i1 j1 h1 with h2 | h2
    · exact absurd h2 e
    · exact h.2 i1 j1 hi1 hj1 h2

theorem levenshteinCell_spec {a b : Str} {R R1 : Nat → Nat → Prop} {dp : Table}
    (h : Table.Filled a b R dp) {i j : Nat} (hi0 : 1 ≤ i) (hi : i ≤ a.length)
    (hj0 : 1 ≤ j) (hj : j ≤ b.length)
    (hd : R (i - 1) (j - 1)) (hu : R (i - 1) j) (hl : R i (j - 1))
    (hR : ∀ i1 j1, R1 i1 j1 → (i1 = i ∧ j1 = j) ∨ R i1 j1) :
    ∃ dp1, levenshteinCell a b i j dp = some dp1 ∧ Table.Filled a b R1 dp1 := by
  obtain ⟨i0, rfl⟩ : ∃ i0, i = i0 + 1 := ⟨i - 1, by omega⟩
  obtain ⟨j0, rfl⟩ : ∃ j0, j = j0 + 1 := ⟨j - 1, by omega⟩
  simp only [Nat.add_sub_cancel] at hd hu hl
  have hx : a[i0]? = some (a[i0]) := List.getElem?_eq_getElem (by omega)
  have hy : b[j0]? = some (b[j0]) := List.getElem?_eq_getElem (by omega)
  have rd := h.2 i0 j0 (by omega) (by omega) hd
  have ru := h.2 i0 (j0 + 1) (by omega) hj hu
  have rl := h.2 (i0 + 1) j0 hi (by omega) hl
  have hc := wrappedCell_succ_succ a b i0 j0 _ _ hx hy
  simp only [levenshteinCell, Nat.add_sub_cancel, hx, hy, rd, ru, rl]
  by_cases e : a[i0] = b[j0]
  · rw [if_pos e] at hc ⊢
    exact Table.filled_write h hi hj hc.symm hR
  · rw [if_neg e] at hc ⊢
    exact Table.filled_write h hi hj hc.symm hR

/-- The loops of `levenshteinDistance` never leave the table, and the value returned is
the last cell of the table of the 32-bit recurrence. -/
theorem levenshteinDistance_eq_wrappedCell (a b : Str) :
    levenshteinDistance a b = some (wrappedCell a b a.length b.length) := by
  -- first column
  obtain ⟨dp1, e1, h1⟩ := foldlM_range'_invariant
    (fun dp i => Table.write dp i 0 (toInt32 (i : Int)))
    (fun k dp => Table.Filled a b (fun i j => j = 0 ∧ i < k) dp)
    (a.length + 1) 0 (Table.create (a.length + 1) (b.length + 1))
    ⟨Table.shape_create _ _, fun i j _ _ h => absurd h.2 (Nat.not_lt_zero _)⟩
    (fun k st _ hk hinv => Table.filled_write hinv (by omega) (Nat.zero_le _)
      (wrappedCell_zero_right a b k).symm
      (fun i1 j1 h => by
        by_cases e : i1 = k
        · exact Or.inl ⟨e, h.1⟩
        · exact Or.inr ⟨h.1, by omega⟩))
  -- first row
  obtain ⟨dp2, e2, h2⟩ := foldlM_range'_invariant
    (fun dp j => Table.write dp 0 j (toInt32 (j : Int)))
    (fun k dp => Table.Filled a b (fun i j => j = 0 ∨ (i = 0 ∧ j < k)) dp)
    (b.length + 1) 0 dp1
    ⟨h1.1, fun i j hi hj h => h1.2 i j hi hj (by
      rcases h with h | h
      · exact ⟨h, by omega⟩
      · exact absurd h.2 (Nat.not_lt_zero _))⟩
    (fun k st _ hk hinv => Table.filled_write hinv (Nat.zero_le _) (by omega)
      (wrappedCell_zero_left a b k).symm
      (fun i1 j1 h => by
        by_cases e : i1 = 0 ∧ j1 = k
        · exact Or.inl e
        · right
          rcases h with h | h
          · exact Or.inl h
          · exact Or.inr ⟨h.1, by omega⟩))
  -- the remaining rows
  obtain ⟨dp3, e3, h3⟩ := foldlM_range'_invariant
    (fun dp i => (List.range' 1 b.length).foldlM (fun dp j => levenshteinCell a b i j dp) dp)
    (fun k dp => Table.Filled a b (fun i j => j = 0 ∨ i < k) dp)
    a.length 1 dp2
    ⟨h2.1, fun i j hi hj h => h2.2 i j hi hj (by
      rcases h with h | h
      · exact Or.inl h
      · exact Or.inr ⟨by omega, by omega⟩)⟩
    (fun i st hi0 hi hinv => by
      obtain ⟨st1, f1, g1⟩ := foldlM_range'_invariant
        (fun dp j => levenshteinCell a b i j dp)
        (fun k dp => Table.Filled a b (fun i1 j1 => j1 = 0 ∨ i1 < i ∨ (i1 = i ∧ j1 < k)) dp)
        b.length 1 st
        ⟨hinv.1, fun i1 j1 hi1 hj1 h => hinv.2 i1 j1 hi1 hj1 (by
          rcases h with h | h | h
          · exact Or.inl h
          · exact Or.inr h
          · exact Or.inl (by omega))⟩
        (fun j st2 hj0 hj hinv2 => levenshteinCell_spec hinv2 hi0 (by omega) hj0 (by omega)
          (Or.inr (Or.inl (by omega))) (Or.inr (Or.inl (by omega)))
          (Or.inr (Or.inr ⟨rfl, by omega⟩))
          (fun i1 j1 h => by
            by_cases e : i1 = i ∧ j1 = j
            · exact Or.inl e
            · right
              rcases h with h | h | h
              · exact Or.inl h
              · exact Or.inr (Or.inl h)
              · exact Or.inr (Or.inr ⟨h.1, by omega⟩)))
      refine ⟨st1, f1, g1.1, fun i1 j1 hi1 hj1 h => g1.2 i1 j1 hi1 hj1 ?_⟩
      rcases h with h | h
      · exact Or.inl h
      · by_cases e : i1 = i
        · exact Or.inr (Or.inr ⟨e, by omega⟩)
        · exact Or.inr (Or.inl (by omega)))
  have hfinal := h3.2 a.length b.length (le_refl _) (le_refl _) (by
    by_cases e : b.length = 0
    · exact Or.inl e
    · right; omega)
  simp only [levenshteinDistance, List.range_eq_range', e1, e2, e3, hfinal,
    Option.bind_eq_bind, Option.some_bind]

/-- The function always returns a value, which is what `distanceTo` names. -/
theorem levenshteinDistance_eq_distanceTo (q c : Str) :
    levenshteinDistance q c = some (distanceTo q c) := by
  simp [distanceTo, levenshteinDistance_eq_wrappedCell]

/-- With an empty first string the value returned is the length of the second, as an `int`. -/
theorem levenshteinDistance_nil_left (b : Str) :
    levenshteinDistance [] b = some (toInt32 (b.length : Int)) := by
  rw [levenshteinDistance_eq_wrappedCell]
  simp [wrappedCell_zero_left]

/-! ### The association-list model of `std::map` -/

section MapLemmas

variable {κ β : Type} [LinearOrder κ]

theorem mapFind_eq_none_iff (m : List (κ × β)) (c : κ) :
    mapFind m c = none ↔ ∀ p ∈ m, p.1 ≠ c := by
  induction m with
  | nil => simp [mapFind]
  | cons p rest ih =>
    obtain ⟨k, v⟩ := p
    by_cases h : c = k
    · simp [mapFind, h]
    · simp [mapFind, h, ih, Ne.symm h]

theorem mem_of_mapFind {m : List (κ × β)} {c : κ} {v : β} (h : mapFind m c = some v) :
    (c, v) ∈ m := by
  induction m with
  | nil => simp [mapFind] at h
  | cons p rest ih =>
    obtain ⟨k, x⟩ := p
    by_cases e : c = k
    · simp [mapFind, e] at h
      simp [e, h]
    · simp [mapFind, e] at h
      exact List.mem_cons_of_mem _ (ih h)

theorem mapFind_of_mem {m : List (κ × β)} (hm : MapOrdered m) {c : κ} {v : β}
    (h : (c, v) ∈ m) : mapFind m c = some v := by
  induction m with
  | nil => simp at h
  | cons p rest ih =>
    obtain ⟨k, x⟩ := p
    have hm1 := List.pairwise_cons.1 hm
    rcases List.mem_cons.1 h with e | e
    · simp only [Prod.mk.injEq] at e
      simp [mapFind, e.1, e.2]
    · have hlt : k < c := hm1.1 _ e
      simp [mapFind, ne_of_gt hlt, ih hm1.2 e]

theorem mem_mapSet_imp {m : List (κ × β)} {c : κ} {v : β} {p : κ × β}
    (h : p ∈ mapSet m c v) : p = (c, v) ∨ p ∈ m := by
  induction m with
  | nil => simp [mapSet] at h; exact Or.inl h
  | cons q rest ih =>
    obtain ⟨k, x⟩ := q
    simp only [mapSet] at h
    split at h
    · rcases List.mem_cons.1 h with e | e
      · exact Or.inl e
      · exact Or.inr e
    · split at h
      · rename_i hck
        rcases List.mem_cons.1 h with e | e
        · exact Or.inl (by rw [e, hck])
        · exact Or.inr (List.mem_cons_of_mem _ e)
      · rcases List.mem_cons.1 h with e | e
        · exact Or.inr (by rw [e]; exact List.mem_cons_self _ _)
        · rcases ih e with e1 | e1
          · exact Or.inl e1
          · exact Or.inr (List.mem_cons_of_mem _ e1)

theorem mem_mapSet {m : List (κ × β)} (hm : MapOrdered m) (c : κ) (v : β) (p : κ × β) :
    p ∈ mapSet m c v ↔ p = (c, v) ∨ (p ∈ m ∧ p.1 ≠ c) := by
  induction m with
  | nil => simp [mapSet]
  | cons q rest ih =>
    obtain ⟨k, x⟩ := q
    have hm1 := List.pairwise_cons.1 hm
    simp only [mapSet]
    split
    · rename_i hck
      constructor
      · intro h
        rcases List.mem_cons.1 h with e | e
        · exact Or.inl e
        · right
          refine ⟨e, ?_⟩
          rcases List.mem_cons.1 e with e1 | e1
          · rw [e1]; exact ne_of_gt hck
          · exact ne_of_gt (lt_trans hck (hm1.1 _ e1))
      · rintro (h | h)
        · rw [h]; exact List.mem_cons_self _ _
        · exact List.mem_cons_of_mem _ h.1
    · split
      · rename_i _ hck
        subst hck
        constructor
        · intro h
          rcases List.mem_cons.1 h with e | e
          · exact Or.inl e
          · exact Or.inr ⟨List.mem_cons_of_mem _ e, ne_of_gt (hm1.1 _ e)⟩
        · rintro (h | h)
          · rw [h]; exact List.mem_cons_self _ _
          · rcases List.mem_cons.1 h.1 with e | e
            · exact absurd (by rw [e]) h.2
            · exact List.mem_cons_of_mem _ e
      · rename_i h1 h2
        constructor
        · intro h
          rcases List.mem_cons.1 h with e | e
          · right
            rw [e]
            exact ⟨List.mem_cons_self _ _, fun hk => h2 hk.symm⟩
          · rcases (ih hm1.2).1 e with e1 | e1
            · exact Or.inl e1
            · exact Or.inr ⟨List.mem_cons_of_mem _ e1.1, e1.2⟩
        · rintro (h | h)
          · exact List.mem_cons_of_mem _ ((ih hm1.2).2 (Or.inl h))
          · rcases List.mem_cons.1 h.1 with e | e
            · rw [e]; exact List.mem_cons_self _ _
            · exact List.mem_cons_of_mem _ ((ih hm1.2).2 (Or.inr ⟨e, h.2⟩))

theorem mapOrdered_mapSet {m : List (κ × β)} (hm : MapOrdered m) (c : κ) (v : β) :
    MapOrdered (mapSet m c v) := by
  induction m with
  | nil => simp [mapSet, MapOrdered]
  | cons q rest ih =>
    obtain ⟨k, x⟩ := q
    have hm1 := List.pairwise_cons.1 hm
    simp only [mapSet]
    split
    · rename_i hck
      refine List.pairwise_cons.2 ⟨?_, hm⟩
      intro p hp
      rcases List.mem_cons.1 hp with e | e
      · rw [e]; exact hck
      · exact lt_trans hck (hm1.1 _ e)
    · split
      · exact List.pairwise_cons.2 ⟨hm1.1, hm1.2⟩
      · rename_i h1 h2
        refine List.pairwise_cons.2 ⟨?_, ih hm1.2⟩
        intro p hp
        rcases mem_mapSet_imp hp with e | e
        · rw [e]
          exact lt_of_le_of_ne (le_of_not_lt h1) (fun hk => h2 hk.symm)
        · exact hm1.1 _ e

end MapLemmas

/-! ### Lexicographic order -/

theorem keyLexLt_nil_cons (k : Int) (y : Str) : keyLexLt [] (k :: y) = true := by
  simp [keyLexLt]

theorem keyLexLt_cons_same (k : Int) (a b : Str) : keyLexLt (k :: a) (k :: b) = keyLexLt a b := by
  simp [keyLexLt]

theorem keyLexLt_cons_of_lt {k1 k2 : Int} (h : k1 < k2) (a b : Str) :
    keyLexLt (k1 :: a) (k2 :: b) = true := by
  simp [keyLexLt, h]

theorem keyLexLt_append_left (pre a b : Str) : keyLexLt (pre ++ a) (pre ++ b) = keyLexLt a b := by
  induction pre with
  | nil => rfl
  | cons c pre ih => simpa [keyLexLt_cons_same] using ih

theorem keyLexLt_irrefl (a : Str) : keyLexLt a a = false := by
  induction a with
  | nil => simp [keyLexLt]
  | cons c a ih => simp [keyLexLt, ih]

/-! ### The words of a trie -/

theorem childrenOrdered_iff (cs : List (Int × TrieNode)) :
    childrenOrdered cs ↔ MapOrdered cs ∧ ∀ p ∈ cs, TrieNode.Ordered p.2 := by
  induction cs with
  | nil => simp [childrenOrdered, MapOrdered]
  | cons q rest ih =>
    obtain ⟨k, child⟩ := q
    simp only [childrenOrdered, ih, MapOrdered, List.pairwise_cons, List.mem_cons,
      forall_eq_or_imp]
    tauto

theorem mem_wordsBelowChildren (cs : List (Int × TrieNode)) (x : Str) :
    x ∈ wordsBelowChildren cs ↔
      ∃ k child y, (k, child) ∈ cs ∧ y ∈ wordsBelow child ∧ x = k :: y := by
  induction cs with
  | nil => simp [wordsBelowChildren]
  | cons q rest ih =>
    obtain ⟨k0, child0⟩ := q
    simp only [wordsBelowChildren, List.mem_append, List.mem_map, ih, List.mem_cons,
      Prod.mk.injEq]
    constructor
    · rintro (⟨y, hy, rfl⟩ | ⟨k, child, y, hmem, hy, rfl⟩)
      · exact ⟨k0, child0, y, Or.inl ⟨rfl, rfl⟩, hy, rfl⟩
      · exact ⟨k, child, y, Or.inr hmem, hy, rfl⟩
    · rintro ⟨k, child, y, (⟨rfl, rfl⟩ | hmem), hy, rfl⟩
      · exact Or.inl ⟨y, hy, rfl⟩
      · exact Or.inr ⟨k, child, y, hmem, hy, rfl⟩

theorem wordsBelow_fresh : wordsBelow TrieNode.fresh = [] := by
  simp [TrieNode.fresh, wordsBelow, wordsBelowChildren]

theorem ordered_fresh : TrieNode.Ordered TrieNode.fresh := by
  simp [TrieNode.fresh, TrieNode.Ordered, childrenOrdered]

mutual
/-- The traversal appends to `results` the words below the node, each behind the prefix. -/
theorem getWordsWithPrefix_eq : ∀ (node : TrieNode) (pre : Str) (results : List Str),
    getWordsWithPrefix node pre results = results ++ (wordsBelow node).map (fun w => pre ++ w)
  | TrieNode.mk cs e, pre, results => by
    rw [getWordsWithPrefix, getWordsOfChildren_eq cs, wordsBelow]
    cases e <;> simp
theorem getWordsOfChildren_eq : ∀ (cs : List (Int × TrieNode)) (pre : Str) (results : List Str),
    getWordsOfChildren cs pre results =
      results ++ (wordsBelowChildren cs).map (fun w => pre ++ w)
  | [], pre, results => by simp [getWordsOfChildren, wordsBelowChildren]
  | (k, child) :: rest, pre, results => by
    rw [getWordsOfChildren, getWordsOfChildren_eq rest, getWordsWithPrefix_eq child,
      wordsBelowChildren]
    simp [List.map_append, List.map_map, Function.comp_def]
end

mutual
theorem wordsBelow_sorted : ∀ (node : TrieNode), TrieNode.Ordered node →
    (wordsBelow node).Pairwise (fun a b => keyLexLt a b = true)
  | TrieNode.mk cs e, h => by
    rw [TrieNode.Ordered] at h
    rw [wordsBelow]
    refine List.pairwise_append.2 ⟨?_, wordsBelowChildren_sorted cs h, ?_⟩
    · cases e <;> simp
    · intro a ha b hb
      obtain ⟨k, child, y, _, _, rfl⟩ := (mem_wordsBelowChildren cs b).1 hb
      cases e
      · simp at ha
      · simp at ha
        rw [ha]; exact keyLexLt_nil_cons k y
theorem wordsBelowChildren_sorted : ∀ (cs : List (Int × TrieNode)), childrenOrdered cs →
    (wordsBelowChildren cs).Pairwise (fun a b => keyLexLt a b = true)
  | [], _ => by simp [wordsBelowChildren]
  | (k, child) :: rest, h => by
    rw [childrenOrdered] at h
    rw [wordsBelowChildren]
    refine List.pairwise_append.2 ⟨?_, wordsBelowChildren_sorted rest h.2.2, ?_⟩
    · rw [List.pairwise_map]
      simpa [keyLexLt_cons_same] using wordsBelow_sorted child h.1
    · intro a ha b hb
      obtain ⟨y, _, rfl⟩ := List.mem_map.1 ha
      obtain ⟨k1, child1, y1, hmem, _, rfl⟩ := (mem_wordsBelowChildren rest b).1 hb
      exact keyLexLt_cons_of_lt (h.2.1 _ hmem) y y1
end

theorem insert_ordered : ∀ (w : Str) (node : TrieNode), TrieNode.Ordered node →
    TrieNode.Ordered (TrieNode.insert w node) := by
  intro w
  induction w with
  | nil =>
    intro node h
    obtain ⟨cs, e⟩ := node
    simpa [TrieNode.insert, TrieNode.Ordered] using h
  | cons c w ih =>
    intro node h
    obtain ⟨cs, e⟩ := node
    rw [TrieNode.Ordered, childrenOrdered_iff] at h
    have key : ∀ child0, TrieNode.Ordered child0 →
        TrieNode.Ordered (TrieNode.mk (mapSet cs c (TrieNode.insert w child0)) e) := by
      intro child0 h0
      rw [TrieNode.Ordered, childrenOrdered_iff]
      refine ⟨mapOrdered_mapSet h.1 _ _, ?_⟩
      intro p hp
      rcases mem_mapSet_imp hp with e1 | e1
      · rw [e1]; exact ih child0 h0
      · exact h.2 p e1
    rw [TrieNode.insert]
    split
    · exact key _ ordered_fresh
    · rename_i child hfind
      exact key child (h.2 _ (mem_of_mapFind hfind))

theorem mem_wordsBelow_insert : ∀ (w : Str) (node : TrieNode), TrieNode.Ordered node →
    ∀ x, x ∈ wordsBelow (TrieNode.insert w node) ↔ x = w ∨ x ∈ wordsBelow node := by
  intro w
  induction w with
  | nil =>
    intro node h x
    obtain ⟨cs, e⟩ := node
    cases e <;> simp [TrieNode.insert, wordsBelow]
  | cons c w ih =>
    intro node h x
    obtain ⟨cs, e⟩ := node
    rw [TrieNode.Ordered, childrenOrdered_iff] at h
    have key : ∀ child0, TrieNode.Ordered child0 →
        (∀ y, y ∈ wordsBelow child0 → (c, child0) ∈ cs) →
        (∀ child, (c, child) ∈ cs → child = child0) →
        (x ∈ wordsBelow (TrieNode.mk (mapSet cs c (TrieNode.insert w child0)) e) ↔
          x = c :: w ∨ x ∈ wordsBelow (TrieNode.mk cs e)) := by
      intro child0 h0 hin huniq
      simp only [wordsBelow, List.mem_append, mem_wordsBelowChildren]
      constructor
      · rintro (hx | ⟨k, child, y, hmem, hy, rfl⟩)
        · exact Or.inr (Or.inl hx)
        · rcases (mem_mapSet h.1 c _ _).1 hmem with e1 | e1
          · simp only [Prod.mk.injEq] at e1
            obtain ⟨rfl, rfl⟩ := e1
            rcases (ih child0 h0 y).1 hy with e2 | e2
            · exact Or.inl (by rw [e2])
            · exact Or.inr (Or.inr ⟨k, child0, y, hin y e2, e2, rfl⟩)
          · exact Or.inr (Or.inr ⟨k, child, y, e1.1, hy, rfl⟩)
      · rintro (hx | hx | ⟨k, child, y, hmem, hy, rfl⟩)
        · exact Or.inr ⟨c, _, w, (mem_mapSet h.1 c _ _).2 (Or.inl rfl),
            (ih child0 h0 w).2 (Or.inl rfl), hx⟩
        · exact Or.inl hx
        · right
          by_cases hk : k = c
          · subst hk
            have := huniq child hmem
            subst this
            exact ⟨k, _, y, (mem_mapSet h.1 k _ _).2 (Or.inl rfl),
              (ih child h0 y).2 (Or.inr hy), rfl⟩
          · exact ⟨k, child, y, (mem_mapSet h.1 c _ _).2 (Or.inr ⟨hmem, hk⟩), hy, rfl⟩
    rw [TrieNode.insert]
    split
    · rename_i hfind
      refine key _ ordered_fresh ?_ ?_
      · intro y hy
        rw [wordsBelow_fresh] at hy
        simp at hy
      · intro child hmem
        exact absurd rfl ((mapFind_eq_none_iff cs c).1 hfind _ hmem)
    · rename_i child hfind
      refine key child (h.2 _ (mem_of_mapFind hfind)) (fun _ _ => mem_of_mapFind hfind) ?_
      intro child1 hmem
      have := mapFind_of_mem h.1 hmem
      rw [hfind] at this
      exact (Option.some.inj this).symm

theorem walk_none : ∀ (p : Str) (node : TrieNode), TrieNode.Ordered node →
    TrieNode.walk p node = none → ∀ x ∈ wordsBelow node, ¬ p <+: x := by
  intro p
  induction p with
  | nil =>
    intro node _ h
    simp [TrieNode.walk] at h
  | cons c p ih =>
    intro node h hw x hx hpre
    obtain ⟨cs, e⟩ := node
    rw [TrieNode.Ordered, childrenOrdered_iff] at h
    rw [wordsBelow, List.mem_append] at hx
    rcases hx with hx | hx
    · cases e
      · simp at hx
      · simp at hx
        rw [hx] at hpre
        simp at hpre
    · obtain ⟨k, child, y, hmem, hy, rfl⟩ := (mem_wordsBelowChildren cs x).1 hx
      obtain ⟨rfl, hpy⟩ := List.cons_prefix_cons.1 hpre
      have hfind := mapFind_of_mem h.1 hmem
      rw [TrieNode.walk, hfind] at hw
      exact ih child (h.2 _ hmem) hw y hy hpy

theorem walk_some : ∀ (p : Str) (node node1 : TrieNode), TrieNode.Ordered node →
    TrieNode.walk p node = some node1 →
    TrieNode.Ordered node1 ∧ ∀ y, (p ++ y ∈ wordsBelow node ↔ y ∈ wordsBelow node1) := by
  intro p
  induction p with
  | nil =>
    intro node node1 h hw
    simp only [TrieNode.walk, Option.some.injEq] at hw
    subst hw
    exact ⟨h, fun y => by simp⟩
  | cons c p ih =>
    intro node node1 h hw
    obtain ⟨cs, e⟩ := node
    have h0 := h
    rw [TrieNode.Ordered, childrenOrdered_iff] at h
    rw [TrieNode.walk] at hw
    split at hw
    · exact absurd hw (by simp)
    · rename_i child hfind
      have hmem := mem_of_mapFind hfind
      obtain ⟨ho, hiff⟩ := ih child node1 (h.2 _ hmem) hw
      refine ⟨ho, fun y => ?_⟩
      rw [← hiff y, wordsBelow, List.mem_append, mem_wordsBelowChildren]
      constructor
      · rintro (hx | ⟨k, child1, y1, hmem1, hy1, heq⟩)
        · cases e <;> simp at hx
        · simp only [List.cons_append, List.cons.injEq] at heq
          obtain ⟨rfl, rfl⟩ := heq
          have := mapFind_of_mem h.1 hmem1
          rw [hfind] at this
          rw [Option.some.inj this]
          exact hy1
      · intro hy
        exact Or.inr ⟨c, child, p ++ y, hmem, hy, rfl⟩

theorem node_suggestions_mem (node : TrieNode) (h : TrieNode.Ordered node) (pre s : Str) :
    s ∈ (Trie.mk node).getSuggestions pre ↔ s ∈ wordsBelow node ∧ pre <+: s := by
  unfold Trie.getSuggestions
  simp only
  cases hw : TrieNode.walk pre node with
  | none =>
    simp only [List.not_mem_nil, false_iff, not_and]
    exact fun hs => walk_none pre node h hw s hs
  | some node1 =>
    obtain ⟨_, hiff⟩ := walk_some pre node node1 h hw
    simp only [getWordsWithPrefix_eq, List.nil_append, List.mem_map]
    constructor
    · rintro ⟨y, hy, rfl⟩
      exact ⟨(hiff y).2 hy, List.prefix_append _ _⟩
    · rintro ⟨hs, ⟨y, rfl⟩⟩
      exact ⟨y, (hiff y).1 hs, rfl⟩

theorem node_suggestions_sorted (node : TrieNode) (h : TrieNode.Ordered node) (pre : Str) :
    ((Trie.mk node).getSuggestions pre).Pairwise (fun a b => keyLexLt a b = true) := by
  unfold Trie.getSuggestions
  simp only
  cases hw : TrieNode.walk pre node with
  | none => simp
  | some node1 =>
    obtain ⟨ho, _⟩ := walk_some pre node node1 h hw
    simp only [getWordsWithPrefix_eq, List.nil_append, List.pairwise_map, keyLexLt_append_left]
    exact wordsBelow_sorted node1 ho

theorem foldl_insert_spec : ∀ (ws : List Str) (t : Trie), TrieNode.Ordered t.root →
    TrieNode.Ordered (ws.foldl Trie.insert t).root ∧
      ∀ x, x ∈ wordsBelow (ws.foldl Trie.insert t).root ↔ x ∈ ws ∨ x ∈ wordsBelow t.root := by
  intro ws
  induction ws with
  | nil => intro t h; exact ⟨h, fun x => by simp⟩
  | cons w ws ih =>
    intro t h
    have h1 : TrieNode.Ordered (t.insert w).root := insert_ordered w t.root h
    obtain ⟨ho, hiff⟩ := ih (t.insert w) h1
    refine ⟨ho, fun x => ?_⟩
    rw [List.foldl_cons, hiff x]
    simp only [Trie.insert, mem_wordsBelow_insert w t.root h, List.mem_cons]
    tauto

theorem ofWords_ordered (ws : List Str) : TrieNode.Ordered (Trie.ofWords ws).root :=
  (foldl_insert_spec ws Trie.empty ordered_fresh).1

theorem mem_wordsBelow_ofWords (ws : List Str) (x : Str) :
    x ∈ wordsBelow (Trie.ofWords ws).root ↔ x ∈ ws := by
  have := (foldl_insert_spec ws Trie.empty ordered_fresh).2 x
  simpa [Trie.empty, wordsBelow_fresh] using this

theorem keyLexLt_append_cons (a : Str) (c : Int) (t : Str) : keyLexLt a (a ++ c :: t) = true := by
  have := keyLexLt_append_left a [] (c :: t)
  simpa [keyLexLt_nil_cons] using this

/-- C4: a string occurs in `Trie::getSuggestions(prefix)` exactly when it is one of the inserted
words and starts with the prefix; the result is empty exactly when no inserted word starts with
the prefix, and for the empty prefix it holds exactly the inserted words. -/
theorem trie_getSuggestions_complete_and_sound (ws : List Str) (pre : Str) :
    (∀ s, s ∈ (Trie.ofWords ws).getSuggestions pre ↔ s ∈ ws ∧ pre <+: s) ∧
    ((Trie.ofWords ws).getSuggestions pre = [] ↔ ∀ w, w ∈ ws → ¬ pre <+: w) ∧
    (∀ s, s ∈ (Trie.ofWords ws).getSuggestions [] ↔ s ∈ ws) := by
  have main : ∀ p s, s ∈ (Trie.ofWords ws).getSuggestions p ↔ s ∈ ws ∧ p <+: s := by
    intro p s
    rw [← mem_wordsBelow_ofWords ws s]
    exact node_suggestions_mem _ (ofWords_ordered ws) p s
  refine ⟨main pre, ?_, fun s => by simpa using main [] s⟩
  rw [List.eq_nil_iff_forall_not_mem]
  constructor
  · intro h w hw hp
    exact h w ((main pre w).2 ⟨hw, hp⟩)
  · intro h s hs
    exact h s ((main pre s).1 hs).1 ((main pre s).1 hs).2

theorem toUnsignedChar_of_ascii {c : Int} (h : 0 ≤ c ∧ c < 128) : toUnsignedChar c = c := by
  unfold toUnsignedChar
  omega

/-- On ASCII strings the key order and the order of the unsigned values agree. -/
theorem keyLexLt_eq_lexLt : ∀ (a b : Str), IsAscii a → IsAscii b → keyLexLt a b = lexLt a b := by
  intro a
  induction a with
  | nil => intro b _ _; cases b <;> simp [keyLexLt, lexLt]
  | cons x a ih =>
    intro b ha hb
    cases b with
    | nil => simp [keyLexLt, lexLt]
    | cons y b =>
      have hx := toUnsignedChar_of_ascii (ha x (List.mem_cons_self _ _))
      have hy := toUnsignedChar_of_ascii (hb y (List.mem_cons_self _ _))
      have hab := ih b (fun c hc => ha c (List.mem_cons_of_mem _ hc))
        (fun c hc => hb c (List.mem_cons_of_mem _ hc))
      simp only [keyLexLt, lexLt, hx, hy, hab]

theorem pairwise_lexLt_of_ascii {l : List Str} (h : l.Pairwise (fun a b => keyLexLt a b = true))
    (hascii : ∀ w, w ∈ l → IsAscii w) : l.Pairwise (fun a b => lexLt a b = true) := by
  refine h.imp_of_mem ?_
  intro a b ha hb hab
  rw [← keyLexLt_eq_lexLt a b (hascii a ha) (hascii b hb)]
  exact hab

/-- C5, as stated, fails: after the insertion of `a`, of the byte 0xE9 and of `z`, the words
come out as 0xE9, `a`, `z`, which is not increasing in the lexicographic order of strings. -/
theorem trie_getSuggestions_not_lexicographic :
    (Trie.ofWords [str "a", [-23], str "z"]).getSuggestions [] = [[-23], str "a", str "z"] ∧
    ¬ ((Trie.ofWords [str "a", [-23], str "z"]).getSuggestions []).Pairwise
      (fun a b => lexLt a b = true) := by
  decide

/-- C5, amended: the list returned by `Trie::getSuggestions` is strictly increasing in the
lexicographic order that compares characters as the children map does (`std::less<char>`:
the bytes 0x80..0xFF before the ASCII characters), whatever words were inserted and however
often; hence it lists no word twice, and a word comes before each of its proper extensions.
When every inserted word is ASCII, it is strictly increasing in the lexicographic order of
strings. -/
theorem trie_getSuggestions_increasing_in_key_order (ws : List Str) (pre : Str) :
    ((Trie.ofWords ws).getSuggestions pre).Pairwise (fun a b => keyLexLt a b = true) ∧
    ((Trie.ofWords ws).getSuggestions pre).Nodup ∧
    (∀ (a : Str) (c : Int) (t : Str), keyLexLt a (a ++ c :: t) = true) ∧
    ((∀ w, w ∈ ws → IsAscii w) →
      ((Trie.ofWords ws).getSuggestions pre).Pairwise (fun a b => lexLt a b = true)) := by
  have hs := node_suggestions_sorted _ (ofWords_ordered ws) pre
  refine ⟨hs, ?_, keyLexLt_append_cons, ?_⟩
  · refine hs.imp ?_
    intro a b hab heq
    rw [heq, keyLexLt_irrefl] at hab
    exact absurd hab (by simp)
  · intro hascii
    refine pairwise_lexLt_of_ascii hs ?_
    intro w hw
    have h1 := (node_suggestions_mem _ (ofWords_ordered ws) pre w).1 hw
    exact hascii w ((mem_wordsBelow_ofWords ws w).1 h1.1)

theorem levRec_reverse (a b : Str) : levRec a.reverse b.reverse = levRec a b := by
  apply le_antisymm
  · exact (levRec_reverse_minimal a b).2 _ (editSeq_levRec _ a b rfl)
  · exact levRec_le_of_editSeq (levRec_reverse_minimal a b).1

/-- For strings shorter than 2^31 the value returned by `levenshteinDistance` is `levRec`. -/
theorem levenshteinDistance_eq_levRec (a b : Str) (ha : a.length < 2147483648)
    (hb : b.length < 2147483648) :
    levenshteinDistance a b = some ((levRec a b : Nat) : Int) := by
  rw [levenshteinDistance_eq_wrappedCell,
    wrappedCell_eq_cellValue a b ha hb _ _ _ rfl (le_refl _) (le_refl _)]
  simp [cellValue, levRec_reverse]

theorem distanceTo_eq_levRec (q c : Str) (hq : q.length < 2147483648)
    (hc : c.length < 2147483648) : distanceTo q c = ((levRec q c : Nat) : Int) := by
  simp [distanceTo, levenshteinDistance_eq_levRec q c hq hc]

/-- The value returned for the empty string and a string of 2^31 characters. -/
theorem levenshteinDistance_nil_replicate (c : Int) :
    levenshteinDistance [] (List.replicate 2147483648 c) = some (-2147483648) := by
  rw [levenshteinDistance_nil_left, List.length_replicate]
  rfl

/-- C1, as stated, fails: for the empty string and a string of 2^31 characters the length
2^31 does not fit the 32-bit cell, and the value returned is -2^31, which is the length of no
edit sequence. -/
theorem levenshteinDistance_not_edit_count_at_two_pow_31 :
    levenshteinDistance [] (List.replicate 2147483648 97) = some (-2147483648) ∧
    ¬ ∃ d : Nat, levenshteinDistance [] (List.replicate 2147483648 97) = some (d : Int) ∧
      EditSeq d [] (List.replicate 2147483648 97) ∧
      ∀ n : Nat, EditSeq n [] (List.replicate 2147483648 97) → d ≤ n := by
  refine ⟨levenshteinDistance_nil_replicate 97, ?_⟩
  rintro ⟨d, hd, _⟩
  rw [levenshteinDistance_nil_replicate] at hd
  have h := Option.some.inj hd
  omega

/-- C1, amended: for strings of length less than 2^31, `levenshteinDistance(a, b)` returns the
minimum number of single-character insertions, deletions and substitutions that transform `a`
into `b`: an edit sequence of exactly that length exists, and no edit sequence is shorter. -/
theorem levenshteinDistance_is_minimum_edit_count (a b : Str) (ha : a.length < 2147483648)
    (hb : b.length < 2147483648) :
    ∃ d : Nat, levenshteinDistance a b = some (d : Int) ∧ EditSeq d a b ∧
      ∀ n : Nat, EditSeq n a b → d ≤ n :=
  ⟨levRec a b, levenshteinDistance_eq_levRec a b ha hb, editSeq_levRec _ a b rfl,
    fun _ h => levRec_le_of_editSeq h⟩

theorem levenshteinDistance_is_minimum_edit_count_witness :
    (str "kitten").length < 2147483648 ∧ (str "sitting").length < 2147483648 ∧
    ∃ d : Nat, levenshteinDistance (str "kitten") (str "sitting") = some (d : Int) ∧
      EditSeq d (str "kitten") (str "sitting") ∧
      ∀ n : Nat, EditSeq n (str "kitten") (str "sitting") → d ≤ n :=
  ⟨by decide, by decide,
    levenshteinDistance_is_minimum_edit_count (str "kitten") (str "sitting")
      (by decide) (by decide)⟩

/-! ### The lexicographic order is a strict total order -/

theorem keyLexLt_trans : ∀ (a b c : Str), keyLexLt a b = true → keyLexLt b c = true → keyLexLt a c = true := by
  intro a
  induction a with
  | nil =>
    intro b c hab hbc
    cases b with
    | nil => simp [keyLexLt] at hab
    | cons y b =>
      cases c with
      | nil => simp [keyLexLt] at hbc
      | cons z c => simp [keyLexLt]
  | cons x a ih =>
    intro b c hab hbc
    cases b with
    | nil => simp [keyLexLt] at hab
    | cons y b =>
      cases c with
      | nil => simp [keyLexLt] at hbc
      | cons z c =>
        simp only [keyLexLt, Bool.or_eq_true, Bool.and_eq_true, decide_eq_true_eq] at hab hbc ⊢
        rcases hab with h1 | ⟨h1, h2⟩
        · rcases hbc with h3 | ⟨h3, _⟩
          · exact Or.inl (lt_trans h1 h3)
          · exact Or.inl (h3 ▸ h1)
        · rcases hbc with h3 | ⟨h3, h4⟩
          · exact Or.inl (h1 ▸ h3)
          · exact Or.inr ⟨h1.trans h3, ih b c h2 h4⟩

theorem keyLexLt_asymm : ∀ (a b : Str), keyLexLt a b = true → keyLexLt b a = false := by
  intro a
  induction a with
  | nil =>
    intro b _
    cases b <;> simp [keyLexLt]
  | cons x a ih =>
    intro b hab
    cases b with
    | nil => simp [keyLexLt] at hab
    | cons y b =>
      simp only [keyLexLt, Bool.or_eq_true, Bool.and_eq_true, decide_eq_true_eq] at hab
      simp only [keyLexLt, Bool.or_eq_false_iff, Bool.and_eq_false_imp, decide_eq_false_iff_not,
        decide_eq_true_eq]
      rcases hab with h1 | ⟨h1, h2⟩
      · exact ⟨lt_asymm h1, fun h => absurd (h ▸ h1) (lt_irrefl _)⟩
      · exact ⟨h1 ▸ lt_irrefl _, fun _ => ih b h2⟩

theorem keyLexLt_total : ∀ (a b : Str), a = b ∨ keyLexLt a b = true ∨ keyLexLt b a = true := by
  intro a
  induction a with
  | nil =>
    intro b
    cases b <;> simp [keyLexLt]
  | cons x a ih =>
    intro b
    cases b with
    | nil => simp [keyLexLt]
    | cons y b =>
      simp only [keyLexLt, Bool.or_eq_true, Bool.and_eq_true, decide_eq_true_eq, List.cons.injEq]
      rcases lt_trichotomy x y with h | h | h
      · exact Or.inr (Or.inl (Or.inl h))
      · rcases ih b with h1 | h1 | h1
        · exact Or.inl ⟨h, h1⟩
        · exact Or.inr (Or.inl (Or.inr ⟨h, h1⟩))
        · exact Or.inr (Or.inr (Or.inr ⟨h.symm, h1⟩))
      · exact Or.inr (Or.inr (Or.inl h))

/-! ### The ranking is a total order -/

instance keyRankLe.isTotal (q : Str) : IsTotal Str (keyRankLe q) where
  total := by
    intro x y
    unfold keyRankLe
    rcases lt_trichotomy (distanceTo q x) (distanceTo q y) with h | h | h
    · exact Or.inl (Or.inl h)
    · rcases keyLexLt_total x y with h1 | h1 | h1
      · exact Or.inl (Or.inr ⟨h, Or.inl h1⟩)
      · exact Or.inl (Or.inr ⟨h, Or.inr h1⟩)
      · exact Or.inr (Or.inr ⟨h.symm, Or.inr h1⟩)
    · exact Or.inr (Or.inl h)

instance keyRankLe.isTrans (q : Str) : IsTrans Str (keyRankLe q) where
  trans := by
    intro x y z hxy hyz
    unfold keyRankLe at *
    rcases hxy with h1 | ⟨h1, h2⟩
    · rcases hyz with h3 | ⟨h3, _⟩
      · exact Or.inl (lt_trans h1 h3)
      · exact Or.inl (h3 ▸ h1)
    · rcases hyz with h3 | ⟨h3, h4⟩
      · exact Or.inl (h1 ▸ h3)
      · refine Or.inr ⟨h1.trans h3, ?_⟩
        rcases h2 with h2 | h2
        · rw [h2]; exact h4
        · rcases h4 with h4 | h4
          · rw [← h4]; exact Or.inr h2
          · exact Or.inr (keyLexLt_trans _ _ _ h2 h4)

instance keyRankLe.isAntisymm (q : Str) : IsAntisymm Str (keyRankLe q) where
  antisymm := by
    intro x y hxy hyx
    unfold keyRankLe at *
    rcases hxy with h1 | ⟨h1, h2⟩
    · rcases hyx with h3 | ⟨h3, _⟩
      · exact absurd h1 (not_lt_of_gt h3)
      · rw [h3] at h1; exact absurd h1 (lt_irrefl _)
    · rcases hyx with h3 | ⟨_, h4⟩
      · rw [h1] at h3; exact absurd h3 (lt_irrefl _)
      · rcases h2 with h2 | h2
        · exact h2
        · rcases h4 with h4 | h4
          · exact h4.symm
          · rw [keyLexLt_asymm _ _ h2] at h4
            exact absurd h4 (by simp)

/-! ### The collecting loops -/

theorem collectGroup_eq : ∀ (group acc : List Str), acc.length < 5 →
    collectGroup group acc =
      if 5 ≤ (acc ++ group).length then ((acc ++ group).take 5, true)
      else (acc ++ group, false) := by
  intro group
  induction group with
  | nil =>
    intro acc h
    have : ¬ 5 ≤ acc.length := by omega
    simp [collectGroup, this]
  | cons s rest ih =>
    intro acc h
    rw [collectGroup]
    by_cases h5 : (acc ++ [s]).length ≥ 5
    · have hlen : (acc ++ [s]).length = 5 := by
        simp at h5 ⊢
        omega
      have h6 : 5 ≤ (acc ++ s :: rest).length := by
        simp at hlen ⊢
        omega
      rw [if_pos h5, if_pos h6]
      have e : acc ++ s :: rest = (acc ++ [s]) ++ rest := by simp
      rw [e, List.take_append_of_le_length (le_of_eq hlen.symm), List.take_of_length_le
        (le_of_eq hlen)]
    · rw [if_neg h5, ih (acc ++ [s]) (by omega)]
      simp

theorem collectSuggestions_eq : ∀ (dm : List (Int × List Str)) (acc : List Str),
    acc.length < 5 → collectSuggestions dm acc = (acc ++ flattenGroups dm).take 5 := by
  intro dm
  induction dm with
  | nil =>
    intro acc h
    simp [collectSuggestions, flattenGroups]
    omega
  | cons p rest ih =>
    intro acc h
    obtain ⟨d, group⟩ := p
    rw [collectSuggestions, collectGroup_eq group acc h, flattenGroups]
    by_cases h5 : 5 ≤ (acc ++ group).length
    · rw [if_pos h5]
      simp only
      rw [← List.append_assoc, List.take_append_of_le_length h5]
    · rw [if_neg h5]
      simp only
      rw [ih (acc ++ group) (by omega), List.append_assoc]

/-! ### The distance map -/

theorem foldlM_eq_some_foldl {σ α : Type} (f : σ → α → Option σ) (g : σ → α → σ)
    (h : ∀ s x, f s x = some (g s x)) :
    ∀ (l : List α) (s : σ), List.foldlM f s l = some (List.foldl g s l) := by
  intro l
  induction l with
  | nil => intro s; rfl
  | cons x l ih =>
    intro s
    simp [List.foldlM_cons, h, ih]

theorem addToDistanceMap_eq (q : Str) (dm : List (Int × List Str)) (m : Str) :
    addToDistanceMap q dm m = some (pushMatch dm (distanceTo q m) m) := by
  simp [addToDistanceMap, levenshteinDistance_eq_distanceTo, pushMatch]

theorem mem_flattenGroups (dm : List (Int × List Str)) (x : Str) :
    x ∈ flattenGroups dm ↔ ∃ p ∈ dm, x ∈ p.2 := by
  induction dm with
  | nil => simp [flattenGroups]
  | cons p rest ih =>
    obtain ⟨d, g⟩ := p
    simp [flattenGroups, ih]

theorem flattenGroups_pushMatch : ∀ (dm : List (Int × List Str)), MapOrdered dm →
    ∀ (d : Int) (m : Str), (flattenGroups (pushMatch dm d m)).Perm (m :: flattenGroups dm) := by
  intro dm
  induction dm with
  | nil =>
    intro _ d m
    simp [pushMatch, mapFind, mapSet, flattenGroups]
  | cons p rest ih =>
    intro hm d m
    obtain ⟨k, x⟩ := p
    have hm1 := List.pairwise_cons.1 hm
    unfold pushMatch
    by_cases h1 : d < k
    · have hnone : mapFind rest d = none := by
        rw [mapFind_eq_none_iff]
        intro p hp
        exact ne_of_gt (lt_trans h1 (hm1.1 p hp))
      simp [mapFind, mapSet, h1, ne_of_lt h1, hnone, flattenGroups]
    · by_cases h2 : d = k
      · subst h2
        simp only [mapFind, mapSet, h1, if_true, if_false, Option.getD_some, flattenGroups]
        simp only [List.append_assoc, List.singleton_append]
        exact List.perm_middle
      · have := ih hm1.2 d m
        unfold pushMatch at this
        simp only [mapFind, mapSet, h1, h2, if_false, flattenGroups]
        exact (List.Perm.append_left x this).trans List.perm_middle

theorem distanceMapInv_nil (q : Str) : DistanceMapInv q [] [] := by
  simp [DistanceMapInv, MapOrdered, flattenGroups]

theorem distanceMapInv_push {q : Str} {dm : List (Int × List Str)} {processed : List Str}
    (h : DistanceMapInv q dm processed) (m : Str) :
    DistanceMapInv q (pushMatch dm (distanceTo q m) m) (processed ++ [m]) := by
  obtain ⟨ho, hp, hg⟩ := h
  refine ⟨mapOrdered_mapSet ho _ _, ?_, ?_⟩
  · refine (flattenGroups_pushMatch dm ho _ m).trans ?_
    exact (List.Perm.cons m hp).trans (List.perm_append_singleton m processed).symm
  · intro p hmem
    rcases mem_mapSet_imp hmem with e | e
    · rw [e]
      simp only
      cases hfind : mapFind dm (distanceTo q m) with
      | none =>
        simp only [Option.getD_none, List.nil_append, List.mem_singleton, forall_eq, true_and]
        exact List.sublist_append_right _ _
      | some g0 =>
        have hin := hg _ (mem_of_mapFind hfind)
        simp only [Option.getD_some]
        refine ⟨?_, List.Sublist.append hin.2 (List.Sublist.refl _)⟩
        intro x hx
        rcases List.mem_append.1 hx with hx | hx
        · exact hin.1 x hx
        · rw [List.mem_singleton.1 hx]
    · exact ⟨(hg p e).1, (hg p e).2.trans (List.sublist_append_left _ _)⟩

theorem distanceMapInv_foldl (q : Str) : ∀ (l : List Str) (dm : List (Int × List Str))
    (processed : List Str), DistanceMapInv q dm processed →
    DistanceMapInv q (l.foldl (fun dm m => pushMatch dm (distanceTo q m) m) dm)
      (processed ++ l) := by
  intro l
  induction l with
  | nil => intro dm processed h; simpa using h
  | cons m l ih =>
    intro dm processed h
    have := ih _ _ (distanceMapInv_push h m)
    simpa using this

theorem flattenGroups_sorted (q : Str) : ∀ (dm : List (Int × List Str)), MapOrdered dm →
    (∀ p ∈ dm, (∀ x ∈ p.2, distanceTo q x = p.1) ∧
      p.2.Pairwise (fun a b => keyLexLt a b = true)) →
    (flattenGroups dm).Pairwise (keyRankLe q) := by
  intro dm
  induction dm with
  | nil => intro _ _; simp [flattenGroups]
  | cons p rest ih =>
    intro ho hg
    obtain ⟨d, g⟩ := p
    have ho1 := List.pairwise_cons.1 ho
    have hd := hg (d, g) (List.mem_cons_self _ _)
    rw [flattenGroups]
    refine List.pairwise_append.2 ⟨?_, ih ho1.2 (fun p hp => hg p (List.mem_cons_of_mem _ hp)), ?_⟩
    · refine hd.2.imp_of_mem ?_
      intro a b ha hb hab
      exact Or.inr ⟨(hd.1 a ha).trans (hd.1 b hb).symm, Or.inr hab⟩
    · intro a ha b hb
      obtain ⟨p, hp, hbp⟩ := (mem_flattenGroups rest b).1 hb
      have h1 := (hg p (List.mem_cons_of_mem _ hp)).1 b hbp
      have h2 := hd.1 a ha
      have h3 : d < p.1 := ho1.1 p hp
      simp only at h2
      exact Or.inl (by rw [h1, h2]; exact h3)

theorem distanceMapInv_sorted {q : Str} {dm : List (Int × List Str)} {processed : List Str}
    (h : DistanceMapInv q dm processed)
    (hs : processed.Pairwise (fun a b => keyLexLt a b = true)) :
    (flattenGroups dm).Pairwise (keyRankLe q) :=
  flattenGroups_sorted q dm h.1 (fun p hp => ⟨(h.2.2 p hp).1, hs.sublist (h.2.2 p hp).2⟩)

/-- The distance map built from a list of matches. -/
theorem distanceMap_spec (q : Str) (candidates : List Str) :
    ∃ dm, candidates.foldlM (addToDistanceMap q) [] = some dm ∧
      DistanceMapInv q dm candidates := by
  refine ⟨_, foldlM_eq_some_foldl _ _ (addToDistanceMap_eq q) candidates [], ?_⟩
  simpa using distanceMapInv_foldl q candidates [] [] (distanceMapInv_nil q)

/-- On a trie that satisfies the map invariant, `SpellChecker::getSuggestions` returns the first
five of the candidates in ranking order. -/
theorem getSuggestions_eq_ranked (sc : SpellChecker) (h : TrieNode.Ordered sc.trie.root)
    (w : Str) :
    sc.getSuggestions w =
      some ((keyRankedCandidates (toLowerCase w)
        (sc.trie.getSuggestions (toLowerCase w))).take 5) := by
  obtain ⟨dm, hfold, hinv⟩ := distanceMap_spec (toLowerCase w)
    (sc.trie.getSuggestions (toLowerCase w))
  have hsorted := distanceMapInv_sorted hinv (node_suggestions_sorted sc.trie.root h _)
  have heq : flattenGroups dm =
      keyRankedCandidates (toLowerCase w) (sc.trie.getSuggestions (toLowerCase w)) :=
    List.eq_of_perm_of_sorted
      (hinv.2.1.trans (List.perm_insertionSort _ _).symm) hsorted
      (List.sorted_insertionSort _ _)
  simp only [SpellChecker.getSuggestions, hfold]
  rw [collectSuggestions_eq dm [] (by simp), List.nil_append, heq]

/-! ### Characters and case -/

theorem toUnsignedChar_range (c : Int) : 0 ≤ toUnsignedChar c ∧ toUnsignedChar c < 256 := by
  unfold toUnsignedChar
  omega

theorem toUnsignedChar_toCChar (x : Int) (h0 : 0 ≤ x) (h1 : x < 256) :
    toUnsignedChar (toCChar x) = x := by
  unfold toUnsignedChar toCChar
  omega

theorem tolower_range (u : Int) (h0 : 0 ≤ u) (h1 : u < 256) :
    0 ≤ tolower u ∧ tolower u < 256 := by
  unfold tolower
  split_ifs <;> omega

theorem toupper_range (u : Int) (h0 : 0 ≤ u) (h1 : u < 256) :
    0 ≤ toupper u ∧ toupper u < 256 := by
  unfold toupper
  split_ifs <;> omega

theorem tolower_tolower (u : Int) : tolower (tolower u) = tolower u := by
  unfold tolower
  split_ifs <;> omega

theorem tolower_toupper (u : Int) : tolower (toupper u) = tolower u := by
  unfold tolower toupper
  split_ifs <;> omega

theorem lower_lower (c : Int) :
    toCChar (tolower (toUnsignedChar (toCChar (tolower (toUnsignedChar c))))) =
      toCChar (tolower (toUnsignedChar c)) := by
  have hu := toUnsignedChar_range c
  have hl := tolower_range _ hu.1 hu.2
  rw [toUnsignedChar_toCChar _ hl.1 hl.2, tolower_tolower]

theorem lower_upper (c : Int) :
    toCChar (tolower (toUnsignedChar (toCChar (toupper (toUnsignedChar c))))) =
      toCChar (tolower (toUnsignedChar c)) := by
  have hu := toUnsignedChar_range c
  have hl := toupper_range _ hu.1 hu.2
  rw [toUnsignedChar_toCChar _ hl.1 hl.2, tolower_toupper]

theorem toLowerCase_toLowerCase (w : Str) : toLowerCase (toLowerCase w) = toLowerCase w := by
  induction w with
  | nil => rfl
  | cons c w ih => simp [toLowerCase, lower_lower, ih]

theorem toLowerCase_toUpperCase (w : Str) : toLowerCase (toUpperCase w) = toLowerCase w := by
  induction w with
  | nil => rfl
  | cons c w ih => simp [toLowerCase, toUpperCase, lower_upper, ih]

theorem toLowerCase_eq_nil (w : Str) : toLowerCase w = [] ↔ w = [] := by
  cases w <;> simp [toLowerCase]

/-! ### Loading -/

theorem extractFrom_ne_nil : ∀ (text : List Int) (cur : Str), ∀ w ∈ extractFrom cur text,
    w ≠ [] := by
  intro text
  induction text with
  | nil =>
    intro cur w hw
    rw [extractFrom] at hw
    split at hw
    · simp at hw
    · rename_i hcur
      rw [List.mem_singleton.1 hw]; exact hcur
  | cons c rest ih =>
    intro cur w hw
    rw [extractFrom] at hw
    split at hw
    · split at hw
      · exact ih [] w hw
      · rename_i hcur
        rcases List.mem_cons.1 hw with e | e
        · rw [e]; exact hcur
        · exact ih [] w e
    · exact ih _ w hw

theorem fileWords_ne_nil (file : Option (List Int)) : ∀ w ∈ fileWords file, w ≠ [] := by
  intro w hw
  cases file with
  | none => simp [fileWords] at hw
  | some text => exact extractFrom_ne_nil text [] w hw

theorem new_eq_foldl (file : Option (List Int)) :
    SpellChecker.new file =
      (fileWords file).foldl SpellChecker.addWord ⟨[], Trie.empty⟩ := by
  cases file <;> rfl

theorem foldl_addWord_trie : ∀ (ws : List Str) (sc : SpellChecker),
    (ws.foldl SpellChecker.addWord sc).trie =
      (ws.map toLowerCase).foldl Trie.insert sc.trie := by
  intro ws
  induction ws with
  | nil => intro sc; rfl
  | cons w ws ih => intro sc; simp [ih, SpellChecker.addWord]

theorem mem_foldl_addWord_dictionary : ∀ (ws : List Str) (sc : SpellChecker) (x : Str),
    x ∈ (ws.foldl SpellChecker.addWord sc).dictionary ↔
      x ∈ ws.map toLowerCase ∨ x ∈ sc.dictionary := by
  intro ws
  induction ws with
  | nil => intro sc x; simp
  | cons w ws ih =>
    intro sc x
    rw [List.foldl_cons, ih]
    simp only [SpellChecker.addWord, setInsert, List.map_cons, List.mem_cons]
    by_cases hm : toLowerCase w ∈ sc.dictionary
    · rw [if_pos hm]
      constructor
      · rintro (h | h)
        · exact Or.inl (Or.inr h)
        · exact Or.inr h
      · rintro ((h | h) | h)
        · exact Or.inr (h ▸ hm)
        · exact Or.inl h
        · exact Or.inr h
    · rw [if_neg hm]
      simp only [List.mem_cons]
      tauto

theorem new_trie (file : Option (List Int)) :
    (SpellChecker.new file).trie = Trie.ofWords ((fileWords file).map toLowerCase) := by
  rw [new_eq_foldl, foldl_addWord_trie]
  rfl

theorem mem_new_dictionary (file : Option (List Int)) (x : Str) :
    x ∈ (SpellChecker.new file).dictionary ↔ x ∈ (fileWords file).map toLowerCase := by
  rw [new_eq_foldl, mem_foldl_addWord_dictionary]
  simp

theorem new_trie_ordered (file : Option (List Int)) :
    TrieNode.Ordered (SpellChecker.new file).trie.root := by
  rw [new_trie]
  exact ofWords_ordered _

/-- After loading, the trie and the membership set hold the same words. -/
theorem mem_wordsBelow_new (file : Option (List Int)) (x : Str) :
    x ∈ wordsBelow (SpellChecker.new file).trie.root ↔ x ∈ (SpellChecker.new file).dictionary := by
  rw [mem_new_dictionary, new_trie]
  exact mem_wordsBelow_ofWords _ x

theorem mem_new_trie_getSuggestions (file : Option (List Int)) (pre s : Str) :
    s ∈ (SpellChecker.new file).trie.getSuggestions pre ↔
      s ∈ (SpellChecker.new file).dictionary ∧ pre <+: s := by
  rw [← mem_wordsBelow_new]
  exact node_suggestions_mem _ (new_trie_ordered file) pre s

theorem isWordCorrect_eq_true_iff (file : Option (List Int)) (w : Str) :
    (SpellChecker.new file).isWordCorrect w = true ↔
      ∃ x ∈ fileWords file, toLowerCase w = toLowerCase x := by
  simp only [SpellChecker.isWordCorrect, decide_eq_true_eq, mem_new_dictionary, List.mem_map]
  constructor
  · rintro ⟨x, hx, e⟩
    exact ⟨x, hx, e.symm⟩
  · rintro ⟨x, hx, e⟩
    exact ⟨x, hx, e.symm⟩

theorem keyRankLe_distance_le {q x y : Str} (h : keyRankLe q x y) : distanceTo q x ≤ distanceTo q y := by
  rcases h with h | h
  · exact le_of_lt h
  · exact le_of_eq h.1

theorem mem_keyRankedCandidates (q : Str) (l : List Str) (s : Str) :
    s ∈ keyRankedCandidates q l ↔ s ∈ l :=
  (List.perm_insertionSort (keyRankLe q) l).mem_iff

theorem toLowerCase_ascii (w : Str) (h : IsAscii w) : IsAscii (toLowerCase w) := by
  induction w with
  | nil => intro c hc; simp [toLowerCase] at hc
  | cons x w ih =>
    intro c hc
    simp only [toLowerCase, List.mem_cons] at hc
    rcases hc with hc | hc
    · have hx : (0 : Int) ≤ x ∧ x < 128 := h x (List.mem_cons_self _ _)
      have e : c = toCChar (tolower (toUnsignedChar x)) := hc
      have e2 : toCChar (tolower (toUnsignedChar x)) = tolower x := by
        rw [toUnsignedChar_of_ascii hx]
        unfold toCChar tolower
        split_ifs <;> omega
      have e3 : (0 : Int) ≤ tolower x ∧ tolower x < 128 := by
        unfold tolower
        split_ifs <;> omega
      rw [e, e2]
      exact e3
    · exact ih (fun c hc => h c (List.mem_cons_of_mem _ hc)) c hc

theorem new_dictionary_ascii (file : Option (List Int))
    (h : ∀ x, x ∈ fileWords file → IsAscii x) :
    ∀ s, s ∈ (SpellChecker.new file).dictionary → IsAscii s := by
  intro s hs
  obtain ⟨x, hx, rfl⟩ := List.mem_map.1 ((mem_new_dictionary file s).1 hs)
  exact toLowerCase_ascii x (h x hx)

theorem orderedInsert_congr {α : Type} (r s : α → α → Prop) [DecidableRel r] [DecidableRel s]
    (a : α) : ∀ (l : List α), (∀ b, b ∈ l → (r a b ↔ s a b)) →
    List.orderedInsert r a l = List.orderedInsert s a l := by
  intro l
  induction l with
  | nil => intro _; rfl
  | cons b l ih =>
    intro h
    have hb := h b (List.mem_cons_self _ _)
    have hl := ih (fun c hc => h c (List.mem_cons_of_mem _ hc))
    by_cases hr : r a b
    · simp [List.orderedInsert, hr, hb.1 hr]
    · have hs : ¬ s a b := fun hs => hr (hb.2 hs)
      simp [List.orderedInsert, hr, hs, hl]

theorem insertionSort_congr {α : Type} (r s : α → α → Prop) [DecidableRel r] [DecidableRel s] :
    ∀ (l : List α), (∀ a b, a ∈ l → b ∈ l → (r a b ↔ s a b)) →
    List.insertionSort r l = List.insertionSort s l := by
  intro l
  induction l with
  | nil => intro _; rfl
  | cons x l ih =>
    intro h
    have hl := ih (fun a b ha hb => h a b (List.mem_cons_of_mem _ ha) (List.mem_cons_of_mem _ hb))
    rw [List.insertionSort_cons_eq_take_drop, List.insertionSort_cons_eq_take_drop,
      ← List.orderedInsert_eq_take_drop, ← List.orderedInsert_eq_take_drop, hl]
    refine orderedInsert_congr r s x _ ?_
    intro b hb
    exact h x b (List.mem_cons_self _ _)
      (List.mem_cons_of_mem _ ((List.perm_insertionSort s l).mem_iff.1 hb))

/-- On ASCII candidates the two rankings sort alike. -/
theorem rankedCandidates_eq_of_ascii (q : Str) (l : List Str) (h : ∀ s, s ∈ l → IsAscii s) :
    keyRankedCandidates q l = rankedCandidates q l := by
  unfold keyRankedCandidates rankedCandidates
  refine insertionSort_congr _ _ l ?_
  intro a b ha hb
  simp only [keyRankLe, rankLe, keyLexLt_eq_lexLt a b (h a ha) (h b hb)]

theorem new_candidates_nodup (file : Option (List Int)) (pre : Str) :
    ((SpellChecker.new file).trie.getSuggestions pre).Nodup := by
  refine (node_suggestions_sorted _ (new_trie_ordered file) pre).imp ?_
  intro a b hab heq
  rw [heq, keyLexLt_irrefl] at hab
  exact absurd hab (by simp)

/-- C2, as stated, fails: with the dictionary `caz`, `ca` followed by the byte 0xE9, and `caa`,
the query `ca` gives the three candidates, all at distance 1, in the key order of the trie,
with the byte 0xE9 first; sorted lexicographically the byte 0xE9 comes last. -/
theorem getSuggestions_ties_not_lexicographic :
    (SpellChecker.new (some (str "caz " ++ [99, 97, -23] ++ str " caa"))).getSuggestions
      (str "ca") = some [[99, 97, -23], str "caa", str "caz"] ∧
    (rankedCandidates (str "ca")
      ((SpellChecker.new (some (str "caz " ++ [99, 97, -23] ++ str " caa"))).trie.getSuggestions
        (str "ca"))).take 5 = [str "caa", str "caz", [99, 97, -23]] ∧
    (SpellChecker.new (some (str "caz " ++ [99, 97, -23] ++ str " caa"))).getSuggestions
      (str "ca") ≠ some ((rankedCandidates (str "ca")
        ((SpellChecker.new (some (str "caz " ++ [99, 97, -23] ++ str " caa"))).trie.getSuggestions
          (str "ca"))).take 5) := by
  decide

/-- C2, amended: `SpellChecker::getSuggestions(w)` returns the first five (all, when fewer) of
the candidates `Trie::getSuggestions(lowercase(w))` sorted by ascending distance to
`lowercase(w)` and, among equal distances, in the lexicographic order that compares characters
as the children map does (`std::less<char>`); so it has at most five elements and their
distances never decrease.  When every word of the dictionary file is ASCII, this is the sort
with the ties in the lexicographic order of strings.  With the dictionary cat, car, cart, dog
the query `ca` gives car, cat, cart. -/
theorem getSuggestions_is_top_five_ranked (file : Option (List Int)) (w : Str) :
    ∃ r, (SpellChecker.new file).getSuggestions w = some r ∧
      r = (keyRankedCandidates (toLowerCase w)
        ((SpellChecker.new file).trie.getSuggestions (toLowerCase w))).take 5 ∧
      r.length ≤ 5 ∧
      r.Pairwise (fun x y => distanceTo (toLowerCase w) x ≤ distanceTo (toLowerCase w) y) ∧
      ((∀ x, x ∈ fileWords file → IsAscii x) →
        r = (rankedCandidates (toLowerCase w)
          ((SpellChecker.new file).trie.getSuggestions (toLowerCase w))).take 5) ∧
      (SpellChecker.new (some (str "cat car cart dog"))).getSuggestions (str "ca") =
        some [str "car", str "cat", str "cart"] := by
  refine ⟨_, getSuggestions_eq_ranked _ (new_trie_ordered file) w, rfl, ?_, ?_, ?_, by decide⟩
  · simp [List.length_take]
  · have hs : (keyRankedCandidates (toLowerCase w)
        ((SpellChecker.new file).trie.getSuggestions (toLowerCase w))).Pairwise
        (keyRankLe (toLowerCase w)) := List.sorted_insertionSort _ _
    exact (hs.imp (fun h => keyRankLe_distance_le h)).sublist (List.take_sublist _ _)
  · intro hascii
    rw [rankedCandidates_eq_of_ascii]
    intro s hs
    exact new_dictionary_ascii file hascii s ((mem_new_trie_getSuggestions file _ s).1 hs).1

/-- C3: every element of `SpellChecker::getSuggestions(w)` is a word of the dictionary that has
`lowercase(w)` as a prefix, and no word appears twice; when no dictionary word starts with
`lowercase(w)` the result is empty.  With the dictionary cat, dog the query `xo` gives
nothing. -/
theorem getSuggestions_sound_wrt_dictionary (file : Option (List Int)) (w : Str) :
    ∃ r, (SpellChecker.new file).getSuggestions w = some r ∧
      (∀ s, s ∈ r → s ∈ (SpellChecker.new file).dictionary ∧ toLowerCase w <+: s) ∧
      r.Nodup ∧
      ((∀ x, x ∈ (SpellChecker.new file).dictionary → ¬ toLowerCase w <+: x) → r = []) ∧
      (SpellChecker.new (some (str "cat dog"))).getSuggestions (str "xo") = some [] := by
  refine ⟨_, getSuggestions_eq_ranked _ (new_trie_ordered file) w, ?_, ?_, ?_, by decide⟩
  · intro s hs
    have h1 := (mem_keyRankedCandidates _ _ s).1 (List.mem_of_mem_take hs)
    exact (mem_new_trie_getSuggestions file _ s).1 h1
  · refine List.Nodup.sublist (List.take_sublist _ _) ?_
    exact (List.perm_insertionSort _ _).nodup_iff.2 (new_candidates_nodup file _)
  · intro h
    have hnil : (SpellChecker.new file).trie.getSuggestions (toLowerCase w) = [] := by
      rw [List.eq_nil_iff_forall_not_mem]
      intro s hs
      have := (mem_new_trie_getSuggestions file _ s).1 hs
      exact h s this.1 this.2
    rw [hnil]
    rfl

/-- C6: `isWordCorrect(w)` is true exactly when `lowercase(w)` is the lower-casing of some loaded
word; so every loaded word, as read from the file or as inserted in the set, is reported
correct, and so is its upper-casing. -/
theorem isWordCorrect_iff_lowercase_loaded (file : Option (List Int)) (w : Str) :
    ((SpellChecker.new file).isWordCorrect w = true ↔
      ∃ x, x ∈ fileWords file ∧ toLowerCase w = toLowerCase x) ∧
    (∀ x, x ∈ fileWords file →
      (SpellChecker.new file).isWordCorrect x = true ∧
      (SpellChecker.new file).isWordCorrect (toUpperCase x) = true) ∧
    (∀ x, x ∈ (SpellChecker.new file).dictionary →
      (SpellChecker.new file).isWordCorrect x = true ∧
      (SpellChecker.new file).isWordCorrect (toUpperCase x) = true) := by
  refine ⟨?_, ?_, ?_⟩
  · simpa using isWordCorrect_eq_true_iff file w
  · intro x hx
    exact ⟨(isWordCorrect_eq_true_iff file x).2 ⟨x, hx, rfl⟩,
      (isWordCorrect_eq_true_iff file _).2 ⟨x, hx, toLowerCase_toUpperCase x⟩⟩
  · intro x hx
    obtain ⟨y, hy, rfl⟩ := List.mem_map.1 ((mem_new_dictionary file x).1 hx)
    exact ⟨(isWordCorrect_eq_true_iff file _).2 ⟨y, hy, toLowerCase_toLowerCase y⟩,
      (isWordCorrect_eq_true_iff file _).2
        ⟨y, hy, (toLowerCase_toUpperCase _).trans (toLowerCase_toLowerCase y)⟩⟩

/-- C7, as stated, fails: with the dictionary file `cat`, the word `CAT` is neither a word of the
file nor a word inserted in the set, and `isWordCorrect` reports it correct. -/
theorem isWordCorrect_true_for_word_not_inserted :
    (str "CAT") ∉ fileWords (some (str "cat")) ∧
    (str "CAT") ∉ (SpellChecker.new (some (str "cat"))).dictionary ∧
    (SpellChecker.new (some (str "cat"))).isWordCorrect (str "CAT") = true := by
  decide

/-- C7, amended: a word whose lower-casing differs from the lower-casing of every loaded word is
reported incorrect. -/
theorem isWordCorrect_false_of_lowercase_not_loaded (file : Option (List Int)) (w : Str)
    (h : ∀ x, x ∈ fileWords file → toLowerCase x ≠ toLowerCase w) :
    (SpellChecker.new file).isWordCorrect w = false := by
  rw [← Bool.not_eq_true, isWordCorrect_eq_true_iff]
  rintro ⟨x, hx, e⟩
  exact h x hx e.symm

theorem isWordCorrect_false_of_lowercase_not_loaded_witness :
    (∀ x, x ∈ fileWords (some (str "cat car")) → toLowerCase x ≠ toLowerCase (str "Dog")) ∧
    (SpellChecker.new (some (str "cat car"))).isWordCorrect (str "Dog") = false :=
  ⟨by decide, isWordCorrect_false_of_lowercase_not_loaded (some (str "cat car")) (str "Dog")
    (by decide)⟩

/-- C8, as stated, fails: with the dictionary file `cat`, the empty query is answered with
`cat`, not with the empty sequence. -/
theorem getSuggestions_empty_query_nonempty :
    (SpellChecker.new (some (str "cat"))).getSuggestions [] = some [(str "cat")] ∧
    (SpellChecker.new (some (str "cat"))).getSuggestions [] ≠ some [] := by
  decide

/-- C8, amended: for the empty query the candidates are all the words of the dictionary, the
result is the first five of them sorted by ascending distance and, among equal distances, in
the lexicographic order that compares characters as the children map does; it is empty exactly
when the dictionary holds no word.  When every word of the dictionary file is ASCII, the ties
are in the lexicographic order of strings. -/
theorem getSuggestions_empty_query (file : Option (List Int)) :
    ∃ r, (SpellChecker.new file).getSuggestions [] = some r ∧
      r = (keyRankedCandidates [] ((SpellChecker.new file).trie.getSuggestions [])).take 5 ∧
      (∀ s, s ∈ (SpellChecker.new file).trie.getSuggestions [] ↔
        s ∈ (SpellChecker.new file).dictionary) ∧
      (r = [] ↔ (SpellChecker.new file).dictionary = []) ∧
      ((∀ x, x ∈ fileWords file → IsAscii x) →
        r = (rankedCandidates [] ((SpellChecker.new file).trie.getSuggestions [])).take 5) := by
  have hmem : ∀ s, s ∈ (SpellChecker.new file).trie.getSuggestions [] ↔
      s ∈ (SpellChecker.new file).dictionary := by
    intro s
    simpa using mem_new_trie_getSuggestions file [] s
  refine ⟨_, getSuggestions_eq_ranked _ (new_trie_ordered file) [], rfl, hmem, ?_, ?_⟩
  · have e : toLowerCase [] = [] := rfl
    rw [e]
    constructor
    · intro h
      rw [List.eq_nil_iff_forall_not_mem]
      intro s hs
      have h1 : s ∈ keyRankedCandidates [] ((SpellChecker.new file).trie.getSuggestions []) :=
        (mem_keyRankedCandidates _ _ s).2 ((hmem s).2 hs)
      have h2 : keyRankedCandidates [] ((SpellChecker.new file).trie.getSuggestions []) = [] := by
        simpa using h
      rw [h2] at h1
      exact absurd h1 (List.not_mem_nil _)
    · intro h
      have h1 : (SpellChecker.new file).trie.getSuggestions [] = [] := by
        rw [List.eq_nil_iff_forall_not_mem]
        intro s hs
        have := (hmem s).1 hs
        rw [h] at this
        exact absurd this (List.not_mem_nil _)
      rw [h1]
      rfl
  · intro hascii
    have e : toLowerCase [] = [] := rfl
    rw [e, rankedCandidates_eq_of_ascii]
    intro s hs
    exact new_dictionary_ascii file hascii s ((hmem s).1 hs)

/-- C9: whatever the dictionary file holds, `isWordCorrect("")` is false. -/
theorem isWordCorrect_empty_string_false (file : Option (List Int)) :
    (SpellChecker.new file).isWordCorrect [] = false := by
  rw [← Bool.not_eq_true, isWordCorrect_eq_true_iff]
  rintro ⟨x, hx, e⟩
  have : toLowerCase x = [] := e.symm
  exact fileWords_ne_nil file x hx ((toLowerCase_eq_nil x).1 this)

/-- C10: when the dictionary file cannot be opened, or holds no word, the checker is constructed
with an empty set and an empty trie; every word is then reported incorrect and gets no
suggestion. -/
theorem empty_dictionary_behaviour (file : Option (List Int))
    (h : file = none ∨ ∃ text, file = some text ∧ extractWords text = []) :
    SpellChecker.new file = ⟨[], Trie.empty⟩ ∧
    ∀ w, (SpellChecker.new file).isWordCorrect w = false ∧
      (SpellChecker.new file).getSuggestions w = some [] := by
  have hw : fileWords file = [] := by
    rcases h with h | ⟨text, h, ht⟩
    · rw [h]; rfl
    · rw [h]; exact ht
  have hnew : SpellChecker.new file = ⟨[], Trie.empty⟩ := by
    rw [new_eq_foldl, hw]; rfl
  refine ⟨hnew, fun w => ⟨?_, ?_⟩⟩
  · rw [← Bool.not_eq_true, isWordCorrect_eq_true_iff, hw]
    simp
  · have hnil : (SpellChecker.new file).trie.getSuggestions (toLowerCase w) = [] := by
      rw [List.eq_nil_iff_forall_not_mem]
      intro s hs
      have := ((mem_new_trie_getSuggestions file _ s).1 hs).1
      rw [hnew] at this
      exact absurd this (List.not_mem_nil _)
    rw [getSuggestions_eq_ranked _ (new_trie_ordered file) w, hnil]
    rfl

theorem empty_dictionary_behaviour_witness :
    ((none : Option (List Int)) = none ∨
      ∃ text, (none : Option (List Int)) = some text ∧ extractWords text = []) ∧
    (SpellChecker.new none).isWordCorrect (str "anything") = false ∧
    (SpellChecker.new none).getSuggestions (str "anything") = some [] :=
  ⟨Or.inl rfl, (empty_dictionary_behaviour none (Or.inl rfl)).2 (str "anything")⟩

/-! ### Algebraic properties of the distance -/

theorem levRec_symm : ∀ (n : Nat) (a b : Str), a.length + b.length = n →
    levRec a b = levRec b a := by
  intro n
  induction n using Nat.strong_induction_on with
  | _ n ih =>
    intro a b hn
    match a, b, hn with
    | [], b, _ => rw [levRec_nil_left, levRec_nil_right]
    | x :: a, [], _ => rw [levRec_nil_left, levRec_nil_right]
    | x :: a, y :: b, hn =>
      have h1 := ih (a.length + (y :: b).length) (by simp at hn ⊢; omega) a (y :: b) rfl
      have h2 := ih ((x :: a).length + b.length) (by simp at hn ⊢; omega) (x :: a) b rfl
      have h3 := ih (a.length + b.length) (by simp at hn ⊢; omega) a b rfl
      rw [levRec_cons_cons, levRec_cons_cons, h1, h2, h3]
      by_cases e : x = y
      · rw [if_pos e, if_pos e.symm]
      · rw [if_neg e, if_neg (fun h => e h.symm)]
        omega

theorem levRec_append_right (q t : Str) : levRec q (q ++ t) = t.length := by
  induction q with
  | nil => simp [levRec_nil_left]
  | cons x q ih => simp [levRec_cons_cons, ih]

theorem wrappedCell_symm (a b : Str) : ∀ (n i j : Nat), i + j = n →
    wrappedCell a b i j = wrappedCell b a j i := by
  intro n
  induction n using Nat.strong_induction_on with
  | _ n ih =>
    intro i j hn
    match i, j, hn with
    | 0, j, _ => rw [wrappedCell_zero_left, wrappedCell_zero_right]
    | i + 1, 0, _ => rw [wrappedCell_zero_left, wrappedCell_zero_right]
    | i + 1, j + 1, hn =>
      have h1 := ih (i + (j + 1)) (by omega) i (j + 1) rfl
      have h2 := ih (i + 1 + j) (by omega) (i + 1) j rfl
      have h3 := ih (i + j) (by omega) i j rfl
      rw [wrappedCell, wrappedCell.eq_3 b a]
      cases ha : a[i]? with
      | none => cases hb : b[j]? <;> rfl
      | some x =>
        cases hb : b[j]? with
        | none => rfl
        | some y =>
          simp only
          rw [h1, h2, h3]
          by_cases e : x = y
          · rw [if_pos e, if_pos e.symm]
          · rw [if_neg e, if_neg (fun h => e h.symm)]
            congr 2
            omega

theorem wrappedCell_diagonal (a : Str) : ∀ (i : Nat), i ≤ a.length →
    wrappedCell a a i i = 0 := by
  intro i
  induction i with
  | zero => intro _; rw [wrappedCell_zero_left]; rfl
  | succ i ih =>
    intro hi
    have hx : a[i]? = some (a[i]) := List.getElem?_eq_getElem (by omega)
    rw [wrappedCell_succ_succ a a i i _ _ hx hx, if_pos rfl]
    exact ih (by omega)

/-- C11: `levenshteinDistance` is symmetric. -/
theorem levenshteinDistance_symmetric (a b : Str) :
    levenshteinDistance a b = levenshteinDistance b a := by
  rw [levenshteinDistance_eq_wrappedCell, levenshteinDistance_eq_wrappedCell,
    wrappedCell_symm a b _ _ _ rfl]

/-- C12: the distance from a string to itself is zero. -/
theorem levenshteinDistance_self (a : Str) : levenshteinDistance a a = some 0 := by
  rw [levenshteinDistance_eq_wrappedCell, wrappedCell_diagonal a _ (le_refl _)]

/-- C13, as stated, fails: for a string of 2^31 characters the length does not fit the 32-bit
cell, and the distance from the empty string is returned as -2^31. -/
theorem levenshteinDistance_empty_left_wraps :
    levenshteinDistance [] (List.replicate 2147483648 97) = some (-2147483648) ∧
    levenshteinDistance [] (List.replicate 2147483648 97) ≠
      some (((List.replicate 2147483648 (97 : Int)).length : Nat) : Int) := by
  refine ⟨levenshteinDistance_nil_replicate 97, ?_⟩
  rw [levenshteinDistance_nil_replicate, List.length_replicate]
  intro h
  have := Option.some.inj h
  omega

/-- C13, amended: for a string `b` of length less than 2^31, the distance from the empty string
to `b` is the length of `b`. -/
theorem levenshteinDistance_empty_left (b : Str) (hb : b.length < 2147483648) :
    levenshteinDistance [] b = some (b.length : Int) := by
  rw [levenshteinDistance_nil_left, toInt32_of_range (by omega) (by omega)]

theorem levenshteinDistance_empty_left_witness :
    (str "hello").length < 2147483648 ∧
    levenshteinDistance [] (str "hello") = some ((str "hello").length : Int) :=
  ⟨by decide, levenshteinDistance_empty_left (str "hello") (by decide)⟩

/-- C14, as stated, fails: for the empty string and a string of 2^31 characters the value
returned is -2^31, a negative number. -/
theorem levenshteinDistance_negative_at_two_pow_31 :
    levenshteinDistance [] (List.replicate 2147483648 97) = some (-2147483648) ∧
    ¬ ∃ d : Int, levenshteinDistance [] (List.replicate 2147483648 97) = some d ∧ 0 ≤ d ∧
      d ≤ max ((([] : Str).length : Nat) : Int)
        (((List.replicate 2147483648 (97 : Int)).length : Nat) : Int) := by
  refine ⟨levenshteinDistance_nil_replicate 97, ?_⟩
  rintro ⟨d, hd, h0, _⟩
  rw [levenshteinDistance_nil_replicate] at hd
  have := Option.some.inj hd
  omega

/-- C14, amended: for strings of length less than 2^31, the value returned by
`levenshteinDistance(a, b)` is a non-negative integer and is at most the larger of the two
lengths. -/
theorem levenshteinDistance_bounds (a b : Str) (ha : a.length < 2147483648)
    (hb : b.length < 2147483648) :
    ∃ d : Int, levenshteinDistance a b = some d ∧ 0 ≤ d ∧
      d ≤ max (a.length : Int) (b.length : Int) := by
  refine ⟨_, levenshteinDistance_eq_levRec a b ha hb, Int.ofNat_nonneg _, ?_⟩
  have h := levRec_le_max a b
  omega

theorem levenshteinDistance_bounds_witness :
    (str "kitten").length < 2147483648 ∧ (str "sitting").length < 2147483648 ∧
    ∃ d : Int, levenshteinDistance (str "kitten") (str "sitting") = some d ∧ 0 ≤ d ∧
      d ≤ max ((str "kitten").length : Int) ((str "sitting").length : Int) :=
  ⟨by decide, by decide,
    levenshteinDistance_bounds (str "kitten") (str "sitting") (by decide) (by decide)⟩

/-! ### Repeated insertion -/

theorem mapFind_mapSet_self {κ β : Type} [LinearOrder κ] (m : List (κ × β)) (c : κ) (v : β) :
    mapFind (mapSet m c v) c = some v := by
  induction m with
  | nil => simp [mapSet, mapFind]
  | cons p rest ih =>
    obtain ⟨k, x⟩ := p
    by_cases h1 : c < k
    · simp [mapSet, h1, mapFind]
    · by_cases h2 : c = k
      · simp [mapSet, h1, h2, mapFind]
      · simp [mapSet, h1, h2, mapFind, ih]

theorem mapSet_mapSet_self {κ β : Type} [LinearOrder κ] (m : List (κ × β)) (c : κ) (v v2 : β) :
    mapSet (mapSet m c v) c v2 = mapSet m c v2 := by
  induction m with
  | nil => simp [mapSet]
  | cons p rest ih =>
    obtain ⟨k, x⟩ := p
    by_cases h1 : c < k
    · simp [mapSet, h1]
    · by_cases h2 : c = k
      · subst h2
        simp [mapSet]
      · simp [mapSet, h1, h2, ih]

theorem insert_insert : ∀ (w : Str) (node : TrieNode),
    TrieNode.insert w (TrieNode.insert w node) = TrieNode.insert w node := by
  intro w
  induction w with
  | nil =>
    intro node
    obtain ⟨cs, e⟩ := node
    simp [TrieNode.insert]
  | cons c w ih =>
    intro node
    obtain ⟨cs, e⟩ := node
    have key : ∀ child0, TrieNode.insert (c :: w)
        (TrieNode.mk (mapSet cs c (TrieNode.insert w child0)) e) =
        TrieNode.mk (mapSet cs c (TrieNode.insert w child0)) e := by
      intro child0
      rw [TrieNode.insert]
      simp only [mapFind_mapSet_self, ih, mapSet_mapSet_self]
    rw [TrieNode.insert]
    split
    · exact key _
    · exact key _

/-- C15: `Trie::insert` is idempotent: inserting a word a second time leaves the trie as it is
after the first insertion, so every `Trie::getSuggestions` result is the same. -/
theorem trie_insert_idempotent (t : Trie) (w : Str) :
    (t.insert w).insert w = t.insert w ∧
    ∀ pre, ((t.insert w).insert w).getSuggestions pre = (t.insert w).getSuggestions pre := by
  have h : (t.insert w).insert w = t.insert w := by
    simp only [Trie.insert, insert_insert]
  exact ⟨h, fun pre => by rw [h]⟩

/-! ### Agreement of the set and the trie -/

theorem mem_loaded_dictionary (ws : List Str) (s : Str) :
    s ∈ (ws.foldl SpellChecker.addWord ⟨[], Trie.empty⟩).dictionary ↔
      s ∈ ws.map toLowerCase := by
  rw [mem_foldl_addWord_dictionary]
  simp

theorem mem_loaded_trie (ws : List Str) (s : Str) :
    s ∈ (ws.foldl SpellChecker.addWord ⟨[], Trie.empty⟩).trie.getSuggestions [] ↔
      s ∈ ws.map toLowerCase := by
  rw [foldl_addWord_trie]
  have h := node_suggestions_mem _ (ofWords_ordered (ws.map toLowerCase)) [] s
  rw [mem_wordsBelow_ofWords] at h
  simpa [Trie.ofWords] using h

/-- C16: while loading, the membership set and the trie agree: after any sequence of words has
been processed from the empty state, and after each word of it, a string is in `dictionary`
exactly when it is a complete word of the trie; so it is after the constructor has run. -/
theorem dictionary_trie_agreement (ws : List Str) :
    (∀ k s, s ∈ ((ws.take k).foldl SpellChecker.addWord ⟨[], Trie.empty⟩).dictionary ↔
      s ∈ ((ws.take k).foldl SpellChecker.addWord ⟨[], Trie.empty⟩).trie.getSuggestions []) ∧
    (∀ s, s ∈ (ws.foldl SpellChecker.addWord ⟨[], Trie.empty⟩).dictionary ↔
      s ∈ (ws.foldl SpellChecker.addWord ⟨[], Trie.empty⟩).trie.getSuggestions []) ∧
    (∀ file s, s ∈ (SpellChecker.new file).dictionary ↔
      s ∈ (SpellChecker.new file).trie.getSuggestions []) := by
  refine ⟨fun k s => ?_, fun s => ?_, fun file s => ?_⟩
  · rw [mem_loaded_dictionary, mem_loaded_trie]
  · rw [mem_loaded_dictionary, mem_loaded_trie]
  · rw [mem_new_trie_getSuggestions]
    simp

/-! ### The prefix test -/

theorem length_toLowerCase (w : Str) : (toLowerCase w).length = w.length := by
  induction w with
  | nil => rfl
  | cons c w ih => simp [toLowerCase, ih]

/-- C17, as stated, fails: with the dictionary file `cat` the query `CA` is answered with `cat`,
whose first two characters are not `CA`. -/
theorem getSuggestions_prefix_not_literal_query :
    (SpellChecker.new (some (str "cat"))).getSuggestions (str "CA") = some [(str "cat")] ∧
    (str "cat").take (str "CA").length ≠ str "CA" := by
  decide

/-- C17, amended: every word returned by `SpellChecker::getSuggestions(w)` has its first
`length(w)` characters equal to `lowercase(w)`; a word failing this test is not returned. -/
theorem getSuggestions_prefix_is_lowercase_query (file : Option (List Int)) (w : Str) :
    ∃ r, (SpellChecker.new file).getSuggestions w = some r ∧
      (∀ s, s ∈ r → s.take w.length = toLowerCase w) ∧
      (∀ s, s.take w.length ≠ toLowerCase w → s ∉ r) := by
  have hmem : ∀ s, s ∈ (keyRankedCandidates (toLowerCase w)
      ((SpellChecker.new file).trie.getSuggestions (toLowerCase w))).take 5 →
      s.take w.length = toLowerCase w := by
    intro s hs
    have h1 := (mem_keyRankedCandidates _ _ s).1 (List.mem_of_mem_take hs)
    have h2 := ((mem_new_trie_getSuggestions file _ s).1 h1).2
    have h3 := List.prefix_iff_eq_take.1 h2
    rw [length_toLowerCase] at h3
    exact h3.symm
  exact ⟨_, getSuggestions_eq_ranked _ (new_trie_ordered file) w, hmem,
    fun s hne hs => hne (hmem s hs)⟩

/-! ### Queries leave the state unchanged -/

theorem mapReplace_of_mapFind {κ β : Type} [LinearOrder κ] {m : List (κ × β)} {c : κ} {v : β}
    (h : mapFind m c = some v) : mapReplace m c v = m := by
  induction m with
  | nil => rfl
  | cons p rest ih =>
    obtain ⟨k, x⟩ := p
    by_cases e : c = k
    · simp only [mapFind, e, if_true, Option.some.injEq] at h
      simp [mapReplace, e, h]
    · simp only [mapFind, e, if_false] at h
      simp [mapReplace, e, ih h]

theorem walkState_eq : ∀ (pre : Str) (node : TrieNode),
    TrieNode.walkState pre node = some (TrieNode.walk pre node, node) := by
  intro pre
  induction pre with
  | nil => intro node; rfl
  | cons c rest ih =>
    intro node
    obtain ⟨cs, e⟩ := node
    cases hfind : mapFind cs c with
    | none => simp [TrieNode.walkState, TrieNode.walk, hfind]
    | some child =>
      simp [TrieNode.walkState, TrieNode.walk, hfind, childIndex, ih,
        mapReplace_of_mapFind hfind]

theorem trie_getSuggestionsState_eq (t : Trie) (pre : Str) :
    t.getSuggestionsState pre = some (t.getSuggestions pre, t) := by
  unfold Trie.getSuggestionsState Trie.getSuggestions
  rw [walkState_eq]
  cases TrieNode.walk pre t.root <;> rfl

theorem getSuggestions_isSome (sc : SpellChecker) (w : Str) :
    ∃ r, sc.getSuggestions w = some r := by
  obtain ⟨dm, hfold, _⟩ := distanceMap_spec (toLowerCase w)
    (sc.trie.getSuggestions (toLowerCase w))
  exact ⟨collectSuggestions dm [], by simp only [SpellChecker.getSuggestions, hfold]⟩

theorem getSuggestionsState_eq (sc : SpellChecker) (w : Str) (r : List Str)
    (h : sc.getSuggestions w = some r) : sc.getSuggestionsState w = some (r, sc) := by
  unfold SpellChecker.getSuggestions at h
  unfold SpellChecker.getSuggestionsState
  simp only [trie_getSuggestionsState_eq]
  cases hfold : List.foldlM (addToDistanceMap (toLowerCase w)) []
      (sc.trie.getSuggestions (toLowerCase w)) with
  | none => simp [hfold] at h
  | some dm =>
    simp only [hfold, Option.some.injEq] at h
    simp [h]

/-- C18: the queries are read-only.  `isWordCorrect` and `getSuggestions`, run with the state
threaded through, return the checker they were given, and `Trie::getSuggestions` returns the
trie it was given: the walk never takes the branch of `children[c]` that adds an entry.  So a
query repeated on the state left by the first run returns the same result. -/
theorem queries_leave_state_unchanged (sc : SpellChecker) (w : Str) :
    sc.isWordCorrectState w = (sc.isWordCorrect w, sc) ∧
    (∀ pre, sc.trie.getSuggestionsState pre = some (sc.trie.getSuggestions pre, sc.trie)) ∧
    (∃ r, sc.getSuggestions w = some r ∧ sc.getSuggestionsState w = some (r, sc) ∧
      (sc.getSuggestionsState w).bind (fun p => p.2.getSuggestionsState w) = some (r, sc)) ∧
    (sc.isWordCorrectState w).2.isWordCorrectState w = sc.isWordCorrectState w := by
  refine ⟨rfl, fun pre => trie_getSuggestionsState_eq sc.trie pre, ?_, rfl⟩
  obtain ⟨r, hr⟩ := getSuggestions_isSome sc w
  have h := getSuggestionsState_eq sc w r hr
  exact ⟨r, hr, h, by simp [h]⟩

/-! ### The table accesses of `levenshteinDistance` -/

theorem TrackedTable.tracked_shape_create (n m : Nat) :
    TrackedTable.Shape n m (TrackedTable.create (n + 1) (m + 1)) := by
  constructor
  · simp [TrackedTable.create]
  · intro row hrow
    simp [TrackedTable.create] at hrow
    simp [hrow]

theorem TrackedTable.tracked_write_spec {n m : Nat} {dp : TrackedTable}
    (hs : TrackedTable.Shape n m dp) {i j : Nat} (hi : i ≤ n) (hj : j ≤ m) (v : Int) :
    ∃ dp1, TrackedTable.write dp i j v = some dp1 ∧ TrackedTable.Shape n m dp1 ∧
      ∀ i1 j1, TrackedTable.read dp1 i1 j1 =
        if i1 = i ∧ j1 = j then some v else TrackedTable.read dp i1 j1 := by
  obtain ⟨hlen, hrows⟩ := hs
  have hil : i < dp.length := by omega
  have hrow : (dp[i]).length = m + 1 := hrows _ (List.getElem_mem hil)
  refine ⟨dp.set i ((dp[i]).set j v), ?_, ⟨?_, ?_⟩, ?_⟩
  · simp only [TrackedTable.write, List.getElem?_eq_getElem hil]
    rw [if_pos (by omega)]
  · simpa using hlen
  · intro row hmem
    rcases List.mem_or_eq_of_mem_set hmem with h | h
    · exact hrows _ h
    · rw [h]; simpa using hrow
  · intro i1 j1
    simp only [TrackedTable.read]
    by_cases e : i1 = i
    · subst e
      rw [List.getElem?_set_self hil]
      by_cases e2 : j1 = j
      · subst e2
        rw [if_pos ⟨rfl, rfl⟩]
        simp [List.getElem?_set_self (show j1 < (dp[i1]).length by omega)]
      · rw [if_neg (fun h => e2 h.2)]
        simp [List.getElem?_eq_getElem hil, List.getElem?_set_ne (Ne.symm e2)]
    · rw [if_neg (fun h => e h.1), List.getElem?_set_ne (Ne.symm e)]

theorem TrackedTable.tracked_filled_write {a b : Str} {R R1 : Nat → Nat → Prop}
    {dp : TrackedTable}
    (h : TrackedTable.Filled a b R dp) {i j : Nat} (hi : i ≤ a.length) (hj : j ≤ b.length)
    {v : Int} (hv : v = wrappedCell a b i j)
    (hR : ∀ i1 j1, R1 i1 j1 → (i1 = i ∧ j1 = j) ∨ R i1 j1) :
    ∃ dp1, TrackedTable.write dp i j v = some dp1 ∧ TrackedTable.Filled a b R1 dp1 := by
  obtain ⟨dp1, hw, hs, hr⟩ := TrackedTable.tracked_write_spec h.1 hi hj v
  refine ⟨dp1, hw, hs, ?_⟩
  intro i1 j1 hi1 hj1 h1
  rw [hr]
  by_cases e : i1 = i ∧ j1 = j
  · rw [if_pos e, hv, e.1, e.2]
  · rw [if_neg e]
    rcases hR i1 j1 h1 with h2 | h2
    · exact absurd h2 e
    · exact h.2 i1 j1 hi1 hj1 h2

theorem levenshteinCellTracked_spec {a b : Str} {R R1 : Nat → Nat → Prop} {dp : TrackedTable}
    (h : TrackedTable.Filled a b R dp) {i j : Nat} (hi0 : 1 ≤ i) (hi : i ≤ a.length)
    (hj0 : 1 ≤ j) (hj : j ≤ b.length)
    (hd : R (i - 1) (j - 1)) (hu : R (i - 1) j) (hl : R i (j - 1))
    (hR : ∀ i1 j1, R1 i1 j1 → (i1 = i ∧ j1 = j) ∨ R i1 j1) :
    ∃ dp1, levenshteinCellTracked a b i j dp = some dp1 ∧ TrackedTable.Filled a b R1 dp1 := by
  obtain ⟨i0, rfl⟩ : ∃ i0, i = i0 + 1 := ⟨i - 1, by omega⟩
  obtain ⟨j0, rfl⟩ : ∃ j0, j = j0 + 1 := ⟨j - 1, by omega⟩
  simp only [Nat.add_sub_cancel] at hd hu hl
  have hx : a[i0]? = some (a[i0]) := List.getElem?_eq_getElem (by omega)
  have hy : b[j0]? = some (b[j0]) := List.getElem?_eq_getElem (by omega)
  have rd := h.2 i0 j0 (by omega) (by omega) hd
  have ru := h.2 i0 (j0 + 1) (by omega) hj hu
  have rl := h.2 (i0 + 1) j0 hi (by omega) hl
  have hc := wrappedCell_succ_succ a b i0 j0 _ _ hx hy
  simp only [levenshteinCellTracked, Nat.add_sub_cancel, hx, hy, rd, ru, rl]
  by_cases e : a[i0] = b[j0]
  · rw [if_pos e] at hc ⊢
    exact TrackedTable.tracked_filled_write h hi hj hc.symm hR
  · rw [if_neg e] at hc ⊢
    exact TrackedTable.tracked_filled_write h hi hj hc.symm hR

/-- On the tracked table too the loops never fail: no access leaves the table and no cell is
read before it has been assigned. -/
theorem levenshteinDistanceTracked_eq_wrappedCell (a b : Str) :
    levenshteinDistanceTracked a b = some (wrappedCell a b a.length b.length) := by
  -- first column
  obtain ⟨dp1, e1, h1⟩ := foldlM_range'_invariant
    (fun dp i => TrackedTable.write dp i 0 (toInt32 (i : Int)))
    (fun k dp => TrackedTable.Filled a b (fun i j => j = 0 ∧ i < k) dp)
    (a.length + 1) 0 (TrackedTable.create (a.length + 1) (b.length + 1))
    ⟨TrackedTable.tracked_shape_create _ _, fun i j _ _ h => absurd h.2 (Nat.not_lt_zero _)⟩
    (fun k st _ hk hinv => TrackedTable.tracked_filled_write hinv (by omega) (Nat.zero_le _)
      (wrappedCell_zero_right a b k).symm
      (fun i1 j1 h => by
        by_cases e : i1 = k
        · exact Or.inl ⟨e, h.1⟩
        · exact Or.inr ⟨h.1, by omega⟩))
  -- first row
  obtain ⟨dp2, e2, h2⟩ := foldlM_range'_invariant
    (fun dp j => TrackedTable.write dp 0 j (toInt32 (j : Int)))
    (fun k dp => TrackedTable.Filled a b (fun i j => j = 0 ∨ (i = 0 ∧ j < k)) dp)
    (b.length + 1) 0 dp1
    ⟨h1.1, fun i j hi hj h => h1.2 i j hi hj (by
      rcases h with h | h
      · exact ⟨h, by omega⟩
      · exact absurd h.2 (Nat.not_lt_zero _))⟩
    (fun k st _ hk hinv => TrackedTable.tracked_filled_write hinv (Nat.zero_le _) (by omega)
      (wrappedCell_zero_left a b k).symm
      (fun i1 j1 h => by
        by_cases e : i1 = 0 ∧ j1 = k
        · exact Or.inl e
        · right
          rcases h with h | h
          · exact Or.inl h
          · exact Or.inr ⟨h.1, by omega⟩))
  -- the remaining rows
  obtain ⟨dp3, e3, h3⟩ := foldlM_range'_invariant
    (fun dp i => (List.range' 1 b.length).foldlM (fun dp j => levenshteinCellTracked a b i j dp) dp)
    (fun k dp => TrackedTable.Filled a b (fun i j => j = 0 ∨ i < k) dp)
    a.length 1 dp2
    ⟨h2.1, fun i j hi hj h => h2.2 i j hi hj (by
      rcases h with h | h
      · exact Or.inl h
      · exact Or.inr ⟨by omega, by omega⟩)⟩
    (fun i st hi0 hi hinv => by
      obtain ⟨st1, f1, g1⟩ := foldlM_range'_invariant
        (fun dp j => levenshteinCellTracked a b i j dp)
        (fun k dp => TrackedTable.Filled a b (fun i1 j1 => j1 = 0 ∨ i1 < i ∨ (i1 = i ∧ j1 < k)) dp)
        b.length 1 st
        ⟨hinv.1, fun i1 j1 hi1 hj1 h => hinv.2 i1 j1 hi1 hj1 (by
          rcases h with h | h | h
          · exact Or.inl h
          · exact Or.inr h
          · exact Or.inl (by omega))⟩
        (fun j st2 hj0 hj hinv2 => levenshteinCellTracked_spec hinv2 hi0 (by omega) hj0 (by omega)
          (Or.inr (Or.inl (by omega))) (Or.inr (Or.inl (by omega)))
          (Or.inr (Or.inr ⟨rfl, by omega⟩))
          (fun i1 j1 h => by
            by_cases e : i1 = i ∧ j1 = j
            · exact Or.inl e
            · right
              rcases h with h | h | h
              · exact Or.inl h
              · exact Or.inr (Or.inl h)
              · exact Or.inr (Or.inr ⟨h.1, by omega⟩)))
      refine ⟨st1, f1, g1.1, fun i1 j1 hi1 hj1 h => g1.2 i1 j1 hi1 hj1 ?_⟩
      rcases h with h | h
      · exact Or.inl h
      · by_cases e : i1 = i
        · exact Or.inr (Or.inr ⟨e, by omega⟩)
        · exact Or.inr (Or.inl (by omega)))
  have hfinal := h3.2 a.length b.length (le_refl _) (le_refl _) (by
    by_cases e : b.length = 0
    · exact Or.inl e
    · right; omega)
  simp only [levenshteinDistanceTracked, List.range_eq_range', e1, e2, e3, hfinal,
    Option.bind_eq_bind, Option.some_bind]

theorem Table.access_outside {n m : Nat} {dp : Table} (hs : Table.Shape n m dp) {i j : Nat}
    (h : n < i ∨ m < j) (v : Int) :
    Table.read dp i j = none ∧ Table.write dp i j v = none := by
  obtain ⟨hlen, hrows⟩ := hs
  cases hrow : dp[i]? with
  | none => simp [Table.read, Table.write, hrow]
  | some row =>
    obtain ⟨hi, hget⟩ := List.getElem?_eq_some.1 hrow
    have hmem : row ∈ dp := hget ▸ List.getElem_mem hi
    have hl := hrows row hmem
    have hj : m < j := by
      rcases h with h | h
      · omega
      · exact h
    have h1 : row[j]? = none := List.getElem?_eq_none (by omega)
    have h2 : ¬ j < row.length := by omega
    simp [Table.read, Table.write, hrow, h1, h2]

/-- C19: `levenshteinDistance` is total.  The table has `length(a) + 1` rows of `length(b) + 1`
cells and an access outside this range fails; yet the function always returns a value, also for
empty strings, and it returns the same value on the table where reading a cell that was never
assigned fails as well. -/
theorem levenshteinDistance_total (a b : Str) :
    (∃ d : Int, levenshteinDistance a b = some d ∧ levenshteinDistanceTracked a b = some d) ∧
    Table.Shape a.length b.length (Table.create (a.length + 1) (b.length + 1)) ∧
    (∀ (dp : Table) (i j : Nat) (v : Int), Table.Shape a.length b.length dp →
      (a.length < i ∨ b.length < j) →
      Table.read dp i j = none ∧ Table.write dp i j v = none) ∧
    levenshteinDistance [] [] = some 0 ∧ levenshteinDistanceTracked [] [] = some 0 :=
  ⟨⟨_, levenshteinDistance_eq_wrappedCell a b, levenshteinDistanceTracked_eq_wrappedCell a b⟩,
    Table.shape_create _ _, fun _ _ _ v hs h => Table.access_outside hs h v,
    by decide, by decide⟩

/-! ### Ranking by length -/

theorem distanceTo_extension {q c : Str} (h : q <+: c) (hc : c.length < 2147483648) :
    distanceTo q c = (c.length : Int) - (q.length : Int) := by
  have hq : q.length < 2147483648 := lt_of_le_of_lt h.length_le hc
  obtain ⟨t, rfl⟩ := h
  rw [distanceTo_eq_levRec _ _ hq hc, levRec_append_right]
  simp

theorem keyShorterFirst_of_rankLe {q x y : Str} (hx : q <+: x) (hy : q <+: y)
    (hxl : x.length < 2147483648) (hyl : y.length < 2147483648)
    (h : keyRankLe q x y) : keyShorterFirst x y := by
  unfold keyRankLe at h
  rw [distanceTo_extension hx hxl, distanceTo_extension hy hyl] at h
  have h1 := hx.length_le
  have h2 := hy.length_le
  rcases h with h | ⟨h, h3⟩
  · exact Or.inl (by omega)
  · exact Or.inr ⟨by omega, h3⟩

theorem eq_query_of_shorterFirst {q h : Str} (hp : q <+: h) (hs : keyShorterFirst h q) :
    h = q := by
  have h1 := hp.length_le
  rcases hs with h2 | ⟨h2, _⟩
  · omega
  · exact (hp.eq_of_length h2.symm).symm

theorem new_dictionary_length (file : Option (List Int))
    (h : ∀ x, x ∈ fileWords file → x.length < 2147483648) :
    ∀ s, s ∈ (SpellChecker.new file).dictionary → s.length < 2147483648 := by
  intro s hs
  obtain ⟨x, hx, rfl⟩ := List.mem_map.1 ((mem_new_dictionary file s).1 hs)
  rw [length_toLowerCase]
  exact h x hx

theorem shorterFirst_of_ascii {a b : Str} (ha : IsAscii a) (hb : IsAscii b)
    (h : keyShorterFirst a b) : shorterFirst a b := by
  unfold keyShorterFirst at h
  unfold shorterFirst
  rw [← keyLexLt_eq_lexLt a b ha hb]
  exact h

/-- C20, as stated, fails, on both counts.  With the dictionary `caz`, `ca` followed by the
byte 0xE9, and `caa`, the query `ca` gives three words of equal length with the byte 0xE9
first, which is not the lexicographic order of strings.  And the empty string is a prefix of
a string of 2^31 characters, for which the distance returned is -2^31, not the difference of
the lengths. -/
theorem getSuggestions_not_shortest_lexicographic :
    ((SpellChecker.new (some (str "caz " ++ [99, 97, -23] ++ str " caa"))).getSuggestions
      (str "ca") = some [[99, 97, -23], str "caa", str "caz"] ∧
     ¬ [[99, 97, -23], str "caa", str "caz"].Pairwise shorterFirst) ∧
    (([] : Str) <+: List.replicate 2147483648 97 ∧
     levenshteinDistance [] (List.replicate 2147483648 97) ≠
      some ((((List.replicate 2147483648 (97 : Int)).length : Nat) : Int) -
        ((([] : Str).length : Nat) : Int))) := by
  refine ⟨by decide, List.nil_prefix, ?_⟩
  rw [levenshteinDistance_nil_replicate, List.length_replicate]
  intro h
  have := Option.some.inj h
  simp at this

/-- C20, amended: for a candidate shorter than 2^31 that extends the query the distance is the
difference of the lengths; hence, when every word of the dictionary file is shorter than 2^31,
`SpellChecker::getSuggestions` returns the (up to) five shortest dictionary words that start
with the lower-cased query, shorter words first and words of equal length in the lexicographic
order that compares characters as the children map does (`std::less<char>`), and the
lower-cased query comes first when it is a dictionary word.  When every word of the file is
ASCII, words of equal length are in the lexicographic order of strings. -/
theorem getSuggestions_shortest_first (file : Option (List Int)) (w : Str)
    (hlen : ∀ x, x ∈ fileWords file → x.length < 2147483648) :
    (∀ q c : Str, q <+: c → c.length < 2147483648 →
      levenshteinDistance q c = some ((c.length : Int) - (q.length : Int))) ∧
    ∃ r, (SpellChecker.new file).getSuggestions w = some r ∧
      r.Pairwise keyShorterFirst ∧ r.Nodup ∧ r.length ≤ 5 ∧
      (∀ s, s ∈ r → s ∈ (SpellChecker.new file).dictionary ∧ toLowerCase w <+: s) ∧
      (∀ x, x ∈ (SpellChecker.new file).dictionary → toLowerCase w <+: x →
        x ∈ r ∨ (r.length = 5 ∧ ∀ s, s ∈ r → keyShorterFirst s x)) ∧
      (toLowerCase w ∈ (SpellChecker.new file).dictionary →
        r.head? = some (toLowerCase w)) ∧
      ((∀ x, x ∈ fileWords file → IsAscii x) →
        r.Pairwise shorterFirst ∧
        ∀ x, x ∈ (SpellChecker.new file).dictionary → toLowerCase w <+: x →
          x ∈ r ∨ (r.length = 5 ∧ ∀ s, s ∈ r → shorterFirst s x)) := by
  constructor
  · intro q c hp hc
    rw [levenshteinDistance_eq_distanceTo, distanceTo_extension hp hc]
  · have hsorted : (keyRankedCandidates (toLowerCase w)
        ((SpellChecker.new file).trie.getSuggestions (toLowerCase w))).Pairwise
        (keyRankLe (toLowerCase w)) := List.sorted_insertionSort _ _
    have hmem : ∀ s, s ∈ keyRankedCandidates (toLowerCase w)
        ((SpellChecker.new file).trie.getSuggestions (toLowerCase w)) ↔
        s ∈ (SpellChecker.new file).dictionary ∧ toLowerCase w <+: s := by
      intro s
      rw [mem_keyRankedCandidates, mem_new_trie_getSuggestions]
    have hnodup : (keyRankedCandidates (toLowerCase w)
        ((SpellChecker.new file).trie.getSuggestions (toLowerCase w))).Nodup :=
      (List.perm_insertionSort _ _).nodup_iff.2 (new_candidates_nodup file _)
    have hget := getSuggestions_eq_ranked _ (new_trie_ordered file) w
    have hdl := new_dictionary_length file hlen
    generalize keyRankedCandidates (toLowerCase w)
      ((SpellChecker.new file).trie.getSuggestions (toLowerCase w)) = R
      at hget hsorted hmem hnodup
    have hshort : R.Pairwise keyShorterFirst :=
      hsorted.imp_of_mem (fun ha hb h =>
        keyShorterFirst_of_rankLe ((hmem _).1 ha).2 ((hmem _).1 hb).2
          (hdl _ ((hmem _).1 ha).1) (hdl _ ((hmem _).1 hb).1) h)
    have hrest : ∀ x, x ∈ (SpellChecker.new file).dictionary → toLowerCase w <+: x →
        x ∈ R.take 5 ∨ ((R.take 5).length = 5 ∧ ∀ s, s ∈ R.take 5 → keyShorterFirst s x) := by
      intro x hx hpre
      have hxR : x ∈ R := (hmem x).2 ⟨hx, hpre⟩
      rw [← List.take_append_drop 5 R, List.mem_append] at hxR
      rcases hxR with h | h
      · exact Or.inl h
      · right
        have hlen5 : 5 < R.length := by
          by_contra hlt
          rw [List.drop_of_length_le (by omega)] at h
          exact absurd h (List.not_mem_nil _)
        refine ⟨by simp [List.length_take]; omega, fun s hs => ?_⟩
        have hsplit : (R.take 5 ++ R.drop 5).Pairwise keyShorterFirst := by
          rw [List.take_append_drop]; exact hshort
        exact (List.pairwise_append.1 hsplit).2.2 s hs x h
    refine ⟨R.take 5, hget, hshort.sublist (List.take_sublist _ _),
      hnodup.sublist (List.take_sublist _ _), by simp [List.length_take],
      fun s hs => (hmem s).1 (List.mem_of_mem_take hs), hrest, ?_, ?_⟩
    · intro hq
      have hqR : toLowerCase w ∈ R := (hmem _).2 ⟨hq, List.prefix_refl _⟩
      cases R with
      | nil => exact absurd hqR (List.not_mem_nil _)
      | cons h tl =>
        have hh : h = toLowerCase w := by
          rcases List.mem_cons.1 hqR with e | e
          · exact e.symm
          · exact eq_query_of_shorterFirst ((hmem h).1 (List.mem_cons_self _ _)).2
              ((List.pairwise_cons.1 hshort).1 _ e)
        simp [hh]
    · intro hascii
      have hda := new_dictionary_ascii file hascii
      have hRa : ∀ s, s ∈ R.take 5 → IsAscii s :=
        fun s hs => hda s ((hmem s).1 (List.mem_of_mem_take hs)).1
      refine ⟨(hshort.sublist (List.take_sublist _ _)).imp_of_mem
        (fun ha hb h => shorterFirst_of_ascii (hRa _ ha) (hRa _ hb) h), ?_⟩
      intro x hx hpre
      rcases hrest x hx hpre with h | ⟨h5, h⟩
      · exact Or.inl h
      · exact Or.inr ⟨h5, fun s hs => shorterFirst_of_ascii (hRa s hs) (hda x hx) (h s hs)⟩

theorem getSuggestions_shortest_first_witness :
    (∀ x, x ∈ fileWords (some (str "cat car cart dog")) → x.length < 2147483648) ∧
    ∃ r, (SpellChecker.new (some (str "cat car cart dog"))).getSuggestions (str "ca") = some r ∧
      r.Pairwise keyShorterFirst ∧ r.Nodup ∧ r.length ≤ 5 :=
  ⟨by decide,
    match (getSuggestions_shortest_first (some (str "cat car cart dog")) (str "ca")
      (by decide)).2 with
    | ⟨r, h1, h2, h3, h4, _⟩ => ⟨r, h1, h2, h3, h4⟩⟩

end SpellCheck
